import Mathlib

/-! # AVL_Tree (avl_tree.hpp): a shallow embedding

`AVL_Tree<T,V>` is a pointer-based AVL tree.  A `Node*` is embedded as a value of
the inductive type `Node K V`, the null pointer being `Node.null`; ownership is
exclusive in the source (no sharing, no cycles), so a pointer and the subtree it
owns are the same thing.  Key comparison (`==`, `<`, `>` on `T`) is a linear
order on `K`.  Keys and values are passed by value: this is what the source does
for lvalue arguments and for types whose move is a copy (the `int` keys of
`tests.hpp` and `main.cpp`).

`unsigned int height` and `size_t _size` are embedded as `Nat`.  A stored height
of a balanced tree is at most logarithmic in the node count, so it does not
reach its machine bound.  `--_size` (in `erase`) is unsigned arithmetic: at 0 it
wraps to `SIZE_MAX`, and it is embedded so (`size_t_dec`).  `++_size` (in
`insert`) is embedded as `_size + 1`, which is the source's value whenever
`_size < SIZE_MAX`; on the trees built by `insert`, `erase` and `operator[]`
from a default-constructed tree `_size` is the number of heap nodes (`Inv`).
-/

namespace AVL

/-- The three exception classes thrown by `avl_tree.hpp`:
`std::out_of_range` ("AVL_Tree out of range!", the spec's KeyNotFoundError),
`std::runtime_error` ("AVL_Tree trying to insert by existing key", the spec's
DuplicateKeyError) and `std::logic_error` ("AVL_Tree assert empty", the spec's
EmptyTreeError). -/
inductive Error where
  | out_of_range
  | runtime_error
  | logic_error
  deriving DecidableEq, Repr

/-- A `Node*`: either `nullptr` or a node with `key`, `val`, `height`, `left`,
`right` (lines 75-92). -/
inductive Node (K V : Type) where
  | null : Node K V
  | node (key : K) (val : V) (height : Nat) (left right : Node K V) : Node K V
  deriving DecidableEq, Repr

/-- The class state: `Node *_root; size_t _size;` (lines 147-148). -/
structure AVL_Tree (K V : Type) where
  _root : Node K V
  _size : Nat
  deriving DecidableEq, Repr

/-- What a call that may throw leaves behind.  `ret q`: the call returned the
pointer `q`.  `thrown e mem`: it threw `e`, and `mem` is the subtree that was
passed in, as it stands in memory once the exception has propagated. -/
inductive Outcome (K V : Type) where
  | ret (q : Node K V)
  | thrown (e : Error) (mem : Node K V)
  deriving DecidableEq, Repr

section Defs

variable {K V : Type}

/-- The pointer `p->left`; reading it through a null pointer does not occur in
the embedded code, the value given for it is never used. -/
def Node.left : Node K V → Node K V
  | .null => .null
  | .node _ _ _ l _ => l

/-- The pointer `p->right`. -/
def Node.right : Node K V → Node K V
  | .null => .null
  | .node _ _ _ _ r => r

/-- The store `p->left = l`. -/
def Node.setLeft : Node K V → Node K V → Node K V
  | .null, _ => .null
  | .node k v h _ r, l => .node k v h l r

/-- The store `p->right = r`. -/
def Node.setRight : Node K V → Node K V → Node K V
  | .null, _ => .null
  | .node k v h l _, r => .node k v h l r

/-- The test `p == nullptr`. -/
def Node.isNull : Node K V → Bool
  | .null => true
  | .node _ _ _ _ _ => false

/-- `_height` (lines 321-324): `p ? p->height : 0`. -/
def _height : Node K V → Nat
  | .null => 0
  | .node _ _ h _ _ => h

/-- `_fixheight` (lines 326-329): `p->height = max(_height(left), _height(right)) + 1`.
The source dereferences `p`; every caller passes a node. -/
def _fixheight : Node K V → Node K V
  | .null => .null
  | .node k v _ l r => .node k v (max (_height l) (_height r) + 1) l r

/-- `_factor` (lines 331-334): `_height(p->right) - _height(p->left)`, an `int`. -/
def _factor : Node K V → Int
  | .null => 0
  | .node _ _ _ l r => (_height r : Int) - (_height l : Int)

/-- `_rotate_right` (lines 336-347): `q = p->left; p->left = q->right;
q->right = p; _fixheight(p); _fixheight(q); return q`.  The last case is a null
dereference in the source; `_balance` never reaches it. -/
def _rotate_right : Node K V → Node K V
  | .node pk pv ph (.node qk qv qh ql qr) pr =>
      _fixheight (.node qk qv qh ql (_fixheight (.node pk pv ph qr pr)))
  | p => p

/-- `_rotate_left` (lines 349-360): `p = q->right; q->right = p->left;
p->left = q; _fixheight(q); _fixheight(p); return p`. -/
def _rotate_left : Node K V → Node K V
  | .node qk qv qh ql (.node pk pv ph pl pr) =>
      _fixheight (.node pk pv ph (_fixheight (.node qk qv qh ql pl)) pr)
  | q => q

/-- `_balance` (lines 363-384); every caller passes a node. -/
def _balance (p : Node K V) : Node K V :=
  let p := _fixheight p
  if _factor p = 2 then
    let p := if _factor p.right < 0 then p.setRight (_rotate_right p.right) else p
    _rotate_left p
  else if _factor p = -2 then
    let p := if _factor p.left > 0 then p.setLeft (_rotate_left p.left) else p
    _rotate_right p
  else
    p

/-- `_find_min` (lines 400-404): `p->left ? _find_min(p->left) : p`. -/
def _find_min : Node K V → Node K V
  | .null => .null
  | .node k v h l r =>
    match l with
    | .null => .node k v h l r
    | .node _ _ _ _ _ => _find_min l

/-- `_find_max` (lines 406-410): `p->right ? _find_max(p->right) : p`. -/
def _find_max : Node K V → Node K V
  | .null => .null
  | .node k v h l r =>
    match r with
    | .null => .node k v h l r
    | .node _ _ _ _ _ => _find_max r

/-- `_remove_min` (lines 412-419). -/
def _remove_min : Node K V → Node K V
  | .null => .null
  | .node k v h l r =>
    match l with
    | .null => r
    | .node _ _ _ _ _ => _balance (.node k v h (_remove_min l) r)

/-- `_calc_size` (lines 483-490). -/
def _calc_size : Node K V → Nat
  | .null => 0
  | .node _ _ _ l r => _calc_size l + _calc_size r + 1

/-! ## Traversal -/

/-- One of the three pointers `n1`, `n2`, `n3` of `_traversal`: initially
`p->left`, `p` itself and `p->right`. -/
inductive Slot where
  | left
  | self
  | right
  deriving DecidableEq, Repr

/-- The source's `traversal_type`, `void (*)(void*&, void*&, void*&)`, acting on
which pointer each of the three variables holds. -/
abbrev traversal_type := Slot × Slot × Slot → Slot × Slot × Slot

/-- `RtLR` (line 135): `swap(n1, n2)`. -/
def RtLR : traversal_type := fun (n1, n2, n3) => (n2, n1, n3)

/-- `RtRL` (line 136): `swap(n2, n3); swap(n1, n3)`. -/
def RtRL : traversal_type := fun (n1, n2, n3) => (n2, n3, n1)

/-- `LRRt` (line 137): `swap(n2, n3)`. -/
def LRRt : traversal_type := fun (n1, n2, n3) => (n1, n3, n2)

/-- `LRtR` (line 138): nothing. -/
def LRtR : traversal_type := fun (n1, n2, n3) => (n1, n2, n3)

/-- `RLRt` (line 139): `swap(n1, n3); swap(n2, n3)`. -/
def RLRt : traversal_type := fun (n1, n2, n3) => (n3, n1, n2)

/-- `RRtL` (line 140): `swap(n1, n3)`. -/
def RRtL : traversal_type := fun (n1, n2, n3) => (n3, n2, n1)

/-- `_const_traversal` (lines 266-284) with a visitor that threads a state `σ`
(what the lambda captures by reference).  A slot holding `p` itself is the call
with `p == parent`, which invokes the visitor; a slot holding a child recurses. -/
def _const_traversal {σ : Type} (t : traversal_type) (func : K → V → σ → σ) :
    Node K V → σ → σ
  | .null, s => s
  | .node k v _ l r, s =>
    match t (Slot.left, Slot.self, Slot.right) with
    | (n1, n2, n3) =>
      let call : Slot → σ → σ := fun n s =>
        match n with
        | Slot.left => _const_traversal t func l s
        | Slot.self => func k v s
        | Slot.right => _const_traversal t func r s
      call n3 (call n2 (call n1 s))

/-- `const_traversal` (lines 64-65). -/
def const_traversal {σ : Type} (tr : AVL_Tree K V) (t : traversal_type)
    (func : K → V → σ → σ) (s : σ) : σ :=
  _const_traversal t func tr._root s

/-- The visitor that appends each `(key, val)` it is handed to a log. -/
def record : K → V → List (K × V) → List (K × V) := fun k v log => log ++ [(k, v)]

/-! ## Abstraction and invariants -/

/-- The entries of a subtree, left subtree first, then the node, then the right
subtree. -/
def toList : Node K V → List (K × V)
  | .null => []
  | .node k v _ l r => toList l ++ (k, v) :: toList r

/-- The keys of a subtree, in the order of `toList`. -/
def keys (p : Node K V) : List K := (toList p).map Prod.fst

/-- A subtree with its values erased: what is left is the shape, the keys and
the stored heights. -/
def skeleton : Node K V → Node K Unit
  | .null => .null
  | .node k _ h l r => .node k () h (skeleton l) (skeleton r)

/-- Search tree with unique keys: at every node the keys on the left are
strictly smaller and the keys on the right strictly greater. -/
def IsSearchTree [LinearOrder K] : Node K V → Prop
  | .null => True
  | .node k _ _ l r =>
    IsSearchTree l ∧ IsSearchTree r ∧ (∀ x ∈ keys l, x < k) ∧ (∀ x ∈ keys r, k < x)

/-- The AVL invariant: at every node the stored height is one more than the
larger of the children's heights (0 for an absent child) and the children's
heights differ by at most 1. -/
def IsAVL : Node K V → Prop
  | .null => True
  | .node _ _ h l r =>
    IsAVL l ∧ IsAVL r ∧ h = max (_height l) (_height r) + 1 ∧
      _height l ≤ _height r + 1 ∧ _height r ≤ _height l + 1

variable [LinearOrder K]

/-- `_find` (lines 386-398); the result is the subtree the returned pointer
owns.  Falling off the end (none of `==`, `<`, `>` holds) cannot happen in a
linear order. -/
def _find : Node K V → K → Node K V
  | .null, _ => .null
  | .node k v h l r, key =>
    if key = k then .node k v h l r
    else if key < k then _find l key
    else if key > k then _find r key
    else .null

/-- `_get` (lines 469-481); a `const` member, it stores nothing. -/
def _get : Node K V → K → Except Error (Node K V)
  | .null, _ => .error .out_of_range
  | .node key v h l r, k =>
    if k = key then .ok (.node key v h l r)
    else if k < key then _get l k
    else _get r k

/-- `_insert` (lines 452-467).  A throw from the recursive call leaves the
assignment `p->left = ...` (or `p->right = ...`) unexecuted. -/
def _insert : Node K V → K → V → Outcome K V
  | .null, k, val => .ret (.node k val 1 .null .null)
  | .node key v h l r, k, val =>
    if key = k then .thrown .runtime_error (.node key v h l r)
    else if k < key then
      match _insert l k val with
      | .thrown e mem => .thrown e (.node key v h mem r)
      | .ret q => .ret (_balance (_fixheight (.node key v h q r)))
    else
      match _insert r k val with
      | .thrown e mem => .thrown e (.node key v h l mem)
      | .ret q => .ret (_balance (_fixheight (.node key v h l q)))

/-- `_remove` (lines 421-449).  In the matching case `q = p->left`,
`r = p->right`, `p` is deleted; `m = _find_min(r)` is the leftmost node of `r`,
which `_remove_min(r)` unlinks without writing to it, so `m` keeps its key,
value and stored height and receives the new `right` and `left`. -/
def _remove : Node K V → K → Outcome K V
  | .null, _ => .thrown .out_of_range .null
  | .node key v h l r, k =>
    if k < key then
      match _remove l k with
      | .thrown e mem => .thrown e (.node key v h mem r)
      | .ret q => .ret (_balance (.node key v h q r))
    else if k > key then
      match _remove r k with
      | .thrown e mem => .thrown e (.node key v h l mem)
      | .ret q => .ret (_balance (.node key v h l q))
    else
      match r with
      | .null => .ret l
      | .node _ _ _ _ _ =>
        .ret (_balance (((_find_min r).setRight (_remove_min r)).setLeft l))

/-- `_assert_empty` (lines 492-497). -/
def _assert_empty (t : AVL_Tree K V) : Except Error Unit :=
  if t._root.isNull then .error .logic_error else .ok ()

/-- The default constructor (lines 13-16). -/
def AVL_Tree.empty : AVL_Tree K V := { _root := .null, _size := 0 }

/-- `size()` (line 71). -/
def size (t : AVL_Tree K V) : Nat := t._size

/-- `find` (lines 48-49). -/
def find (t : AVL_Tree K V) (key : K) : Bool := !(_find t._root key).isNull

/-- `get` (lines 42-46): `_get(_root, key)->val`.  `_get` returns a node or
throws, so the last case does not occur. -/
def get (t : AVL_Tree K V) (key : K) : Except Error V :=
  match _get t._root key with
  | .error e => .error e
  | .ok (.node _ v _ _ _) => .ok v
  | .ok .null => .error .out_of_range

/-- `insert` (lines 202-214); the pair is the tree after the call and whether
the call returned or threw.  `++_size` is `_size + 1`, the source's value
whenever `_size < SIZE_MAX` (`size_t_inc_eq_mod`). -/
def insert (t : AVL_Tree K V) (key : K) (val : V) : AVL_Tree K V × Except Error Unit :=
  match t._root with
  | .null => ({ _root := .node key val 1 .null .null, _size := t._size + 1 }, .ok ())
  | .node _ _ _ _ _ =>
    match _insert t._root key val with
    | .thrown e mem => ({ _root := mem, _size := t._size }, .error e)
    | .ret q => ({ _root := q, _size := t._size + 1 }, .ok ())

/-- `SIZE_MAX`, the greatest value of `size_t`, an unsigned integer of 64 bits on
the LP64 platforms the repository is built for. -/
def SIZE_MAX : Nat := 2 ^ 64 - 1

/-- `--_size` on a `size_t` (line 38): unsigned arithmetic is modulo
`SIZE_MAX + 1`, so the decrement of 0 is `SIZE_MAX`; `size_t_dec_eq_mod` gives
the same value as a remainder. -/
def size_t_dec (n : Nat) : Nat := if n = 0 then SIZE_MAX else n - 1

/-- `erase` (lines 37-38): `_assert_empty(); _root = _remove(_root, key); --_size;`.
The decrement runs only after `_remove` has unlinked a node; it does not look at
`_size`, which wraps when it is 0. -/
def erase (t : AVL_Tree K V) (key : K) : AVL_Tree K V × Except Error Unit :=
  match _assert_empty t with
  | .error e => (t, .error e)
  | .ok () =>
    match _remove t._root key with
    | .thrown e mem => ({ _root := mem, _size := t._size }, .error e)
    | .ret q => ({ _root := q, _size := size_t_dec t._size }, .ok ())

/-- `operator[]` (lines 223-232): `if(!find(key)) insert(key, V()); return get(key);`.
The second component is the value the returned reference designates. -/
def operator_subscript [Inhabited V] (t : AVL_Tree K V) (key : K) :
    AVL_Tree K V × Except Error V :=
  if !find t key then
    match insert t key default with
    | (t1, .error e) => (t1, .error e)
    | (t1, .ok ()) => (t1, get t1 key)
  else
    (t, get t key)

/-- A store through the `V&` that `_get(p, k)->val` designates: the node `_get`
stops at receives `val`, nothing else is written. -/
def _store : Node K V → K → V → Node K V
  | .null, _, _ => .null
  | .node key v h l r, k, val =>
    if k = key then .node key val h l r
    else if k < key then .node key v h (_store l k val) r
    else .node key v h l (_store r k val)

/-- The statement `tree[key] = val` (tests.hpp line 107, priority_queue.hpp
line 41): `operator[]`, then a store through the reference it returned. -/
def subscript_assign [Inhabited V] (t : AVL_Tree K V) (key : K) (val : V) :
    AVL_Tree K V × Except Error Unit :=
  match operator_subscript t key with
  | (t1, .error e) => (t1, .error e)
  | (t1, .ok _) => ({ _root := _store t1._root key val, _size := t1._size }, .ok ())

/-! ## Call sequences -/

/-- A call made on a tree by its owner. -/
inductive Op (K V : Type) where
  | insert (key : K) (val : V)
  | erase (key : K)
  | subscript (key : K)
  | subscript_assign (key : K) (val : V)
  deriving DecidableEq, Repr

/-- The tree after one call; an exception is caught by the caller and the tree
is kept as the throwing call left it. -/
def step [Inhabited V] (t : AVL_Tree K V) : Op K V → AVL_Tree K V
  | .insert key val => (insert t key val).1
  | .erase key => (erase t key).1
  | .subscript key => (operator_subscript t key).1
  | .subscript_assign key val => (subscript_assign t key val).1

/-- The tree after a sequence of calls on a default-constructed tree. -/
def run [Inhabited V] (ops : List (Op K V)) : AVL_Tree K V :=
  ops.foldl step AVL_Tree.empty

/-- `insert` of each pair in turn; the flag tells whether every call returned. -/
def insert_all (t : AVL_Tree K V) : List (K × V) → AVL_Tree K V × Bool
  | [] => (t, true)
  | (k, v) :: rest =>
    match insert t k v with
    | (t1, .ok ()) => insert_all t1 rest
    | (t1, .error _) => ((insert_all t1 rest).1, false)

/-- `erase` of each key in turn; the flag tells whether every call returned. -/
def erase_all (t : AVL_Tree K V) : List K → AVL_Tree K V × Bool
  | [] => (t, true)
  | k :: rest =>
    match erase t k with
    | (t1, .ok ()) => erase_all t1 rest
    | (t1, .error _) => ((erase_all t1 rest).1, false)

/-- What every tree built by calls satisfies: search tree, AVL invariant, and
`_size` equal to the number of nodes. -/
def Inv (t : AVL_Tree K V) : Prop :=
  IsSearchTree t._root ∧ IsAVL t._root ∧ t._size = _calc_size t._root

end Defs

/-! ## Sample trees -/

/-- The tree holding keys 1 and 2 (2 to the right of 1), values ten times the key. -/
def sample12 : AVL_Tree Nat Nat :=
  { _root := .node 1 10 2 .null (.node 2 20 1 .null .null), _size := 2 }

/-- The tree holding keys 1 to 4 with root 2. -/
def sample1234 : AVL_Tree Nat Nat :=
  { _root := .node 2 20 3 (.node 1 10 1 .null .null)
      (.node 3 30 2 .null (.node 4 40 1 .null .null)), _size := 4 }

/-- The tree holding the keys 1, 2, 3 with the integer values 5, -2, 7. -/
def sampleInt : AVL_Tree Nat Int :=
  { _root := .node 2 (-2) 2 (.node 1 5 1 .null .null) (.node 3 7 1 .null .null), _size := 3 }

/-- The tree of main.cpp lines 16-19: `Tree[i] = std::to_string(i)` for
`i = 0 .. 14`, in that order, on a default-constructed tree. -/
def sample15 : AVL_Tree Nat String :=
  run ([(0, "0"), (1, "1"), (2, "2"), (3, "3"), (4, "4"), (5, "5"), (6, "6"), (7, "7"),
    (8, "8"), (9, "9"), (10, "10"), (11, "11"), (12, "12"), (13, "13"), (14, "14")].map
      (fun e => Op.subscript_assign e.1 e.2))

/-! ## Further members of `AVL_Tree` -/

section Members

variable {K V : Type}

/-- `Node(const Node *node)` (lines 297-312): key, value and stored height are
copied, and each child that is not null is copied in turn. -/
def Node.copy : Node K V → Node K V
  | .null => .null
  | .node k v h l r => .node k v h (Node.copy l) (Node.copy r)

/-- The copy constructor (lines 152-156). -/
def AVL_Tree.copy (t : AVL_Tree K V) : AVL_Tree K V :=
  { _root := Node.copy t._root, _size := t._size }

/-- `clear()` (lines 216-221): `delete _root; _root = nullptr;`.  `_size` is not
written. -/
def clear (t : AVL_Tree K V) : AVL_Tree K V :=
  { _root := .null, _size := t._size }

/-- `height()` (line 72): `_root->height`, with no check of `_root`; `none`
stands for the dereference of a null `_root`. -/
def height (t : AVL_Tree K V) : Option Nat :=
  match t._root with
  | .null => none
  | .node _ _ h _ _ => some h

/-- The number of nodes on the longest path from the root of a subtree down to
a leaf, 0 for the empty subtree. -/
def depth : Node K V → Nat
  | .null => 0
  | .node _ _ _ l r => max (depth l) (depth r) + 1

/-- One of the three calls `_traversal(n_i, p, t, func)` made at a node `p`
(lines 260-262), acting on `p` as it stands and on the visitor's state.  A slot
holding `p` itself is the call with `p == parent`, which invokes the visitor
`func(p->key, p->val)`; the visitor may store into `p->val`.  A slot holding a
child recurses into that child (`onLeft`, `onRight`). -/
def traversal_call {σ : Type} (func : K → V → σ → V × σ)
    (onLeft onRight : Node K V → σ → Node K V × σ) (n : Slot) :
    Node K V × σ → Node K V × σ
  | (.null, s) => (.null, s)
  | (.node k v h l r, s) =>
    match n with
    | Slot.left =>
      match onLeft l s with
      | (l1, s1) => (.node k v h l1 r, s1)
    | Slot.self =>
      match func k v s with
      | (v1, s1) => (.node k v1 h l r, s1)
    | Slot.right =>
      match onRight r s with
      | (r1, s1) => (.node k v h l r1, s1)

/-- `_traversal` (lines 246-264) with a visitor that threads a state `σ` (what
the lambda captures).  The visitor writes values only, so a subtree keeps the
shape it has when the call begins: the recursion runs along that shape (first
argument) and each call acts on the subtree as it stands at that moment (second
argument). -/
def _traversal_along {σ : Type} (t : traversal_type) (func : K → V → σ → V × σ) :
    Node K V → Node K V → σ → Node K V × σ
  | .null, cur, s => (cur, s)
  | .node _ _ _ gl gr, cur, s =>
    match t (Slot.left, Slot.self, Slot.right) with
    | (n1, n2, n3) =>
      traversal_call func (_traversal_along t func gl) (_traversal_along t func gr) n3
        (traversal_call func (_traversal_along t func gl) (_traversal_along t func gr) n2
          (traversal_call func (_traversal_along t func gl) (_traversal_along t func gr) n1
            (cur, s)))

/-- `_traversal(p, nullptr, t, func)`: the subtree after the call and the
visitor's state. -/
def _traversal {σ : Type} (t : traversal_type) (func : K → V → σ → V × σ)
    (p : Node K V) (s : σ) : Node K V × σ :=
  _traversal_along t func p p s

/-- `traversal` (lines 61-62). -/
def traversal {σ : Type} (tr : AVL_Tree K V) (t : traversal_type)
    (func : K → V → σ → V × σ) (s : σ) : AVL_Tree K V × σ :=
  ({ _root := (_traversal t func tr._root s).1, _size := tr._size },
    (_traversal t func tr._root s).2)

/-- A visitor for `traversal` that logs the entry it is handed and leaves the
value alone. -/
def record_mut : K → V → List (K × V) → V × List (K × V) :=
  fun k v log => (v, log ++ [(k, v)])

/-- The order of a depth-first walk that processes, at each node, the three
parts named by `a`, `b`, `c` in that order: `Slot.left` is the whole left
subtree, `Slot.self` the node, `Slot.right` the whole right subtree. -/
def walk (a b c : Slot) : Node K V → List (K × V)
  | .null => []
  | .node k v _ l r =>
    let part : Slot → List (K × V) := fun n =>
      match n with
      | Slot.left => walk a b c l
      | Slot.self => [(k, v)]
      | Slot.right => walk a b c r
    part a ++ part b ++ part c

end Members

section Members2

variable {K V : Type} [LinearOrder K]

/-- `find_min()` (line 51): `_assert_empty(); min_node = _find_min(_root);
return {min_node->key, min_node->val}`.  `_find_min` of a node is a node, so the
last case does not occur. -/
def find_min (t : AVL_Tree K V) : Except Error (K × V) :=
  match _assert_empty t with
  | .error e => .error e
  | .ok () =>
    match _find_min t._root with
    | .node k v _ _ _ => .ok (k, v)
    | .null => .error .logic_error

/-- `find_max()` (line 53). -/
def find_max (t : AVL_Tree K V) : Except Error (K × V) :=
  match _assert_empty t with
  | .error e => .error e
  | .ok () =>
    match _find_max t._root with
    | .node k v _ _ _ => .ok (k, v)
    | .null => .error .logic_error

/-- `subtree` (lines 234-244): `p = _find(_root, key); ret._root = new Node(p);
ret._size = ret._calc_size(ret._root)`.  `new Node(p)` reads through `p` with no
check; `none` stands for that dereference when `_find` returned null. -/
def subtree (t : AVL_Tree K V) (key : K) : Option (AVL_Tree K V) :=
  match _find t._root key with
  | .null => none
  | .node k v h l r =>
    some { _root := Node.copy (.node k v h l r),
           _size := _calc_size (Node.copy (.node k v h l r)) }

/-- `map(const AVL_Tree&, f)` (lines 500-509): `ret = tree` (copy), then
`ret.traversal(LRtR, [f](key, val){ val = f(val); })`. -/
def map (tree : AVL_Tree K V) (f : V → V) : AVL_Tree K V :=
  (traversal (AVL_Tree.copy tree) LRtR (fun _ val (s : Unit) => (f val, s)) ()).1

/-- `map(AVL_Tree&&, f)` (lines 511-520): `ret = tree` names the parameter, so
it is the copy constructor that runs and the argument is not moved from.  The
pair is the argument after the call and the returned tree. -/
def map_rvalue (tree : AVL_Tree K V) (f : V → V) : AVL_Tree K V × AVL_Tree K V :=
  (tree, (traversal (AVL_Tree.copy tree) LRtR (fun _ val (s : Unit) => (f val, s)) ()).1)

/-- The lambda of `where` (lines 526-530): `if(f(val)) ret.insert(key, val)`.
The state is `ret`, or the exception that `insert` threw: once thrown it leaves
the traversal, so later visits do nothing. -/
def where_visit (f : V → Bool) :
    K → V → Except Error (AVL_Tree K V) → Except Error (AVL_Tree K V) :=
  fun key val st =>
    match st with
    | .error e => .error e
    | .ok ret =>
      if f val then
        match insert ret key val with
        | (_, .error e) => .error e
        | (ret1, .ok ()) => .ok ret1
      else .ok ret

/-- `where(const AVL_Tree&, f)` (lines 522-532); `where` is a keyword here. -/
def where_ (tree : AVL_Tree K V) (f : V → Bool) : Except Error (AVL_Tree K V) :=
  const_traversal tree LRtR (where_visit f) (.ok AVL_Tree.empty)

/-- `where(AVL_Tree&&, f)` (lines 534-545): the same walk; `std::move(val)` on a
`const V&` copies. -/
def where_rvalue (tree : AVL_Tree K V) (f : V → Bool) : Except Error (AVL_Tree K V) :=
  const_traversal tree LRtR (where_visit f) (.ok AVL_Tree.empty)

/-- `reduce` (lines 547-557): `ret = init`, then `ret = f(val, ret)` at every
visit of `const_traversal(t_type, ...)`. -/
def reduce (tree : AVL_Tree K V) (init : V) (f : V → V → V) (t_type : traversal_type) : V :=
  const_traversal tree t_type (fun _ val ret => f val ret) init

/-- `reduce(tree, init, f)`: the parameter `t_type` left at its default, `LRtR`. -/
def reduce_default (tree : AVL_Tree K V) (init : V) (f : V → V → V) : V :=
  reduce tree init f LRtR

end Members2

/-! ## PriorityQueue (priority_queue.hpp) -/

/-- `PriorityQueue<V, T>`: its only member is `AVL_Tree<T,V> _tree`. -/
structure PriorityQueue (V K : Type) where
  _tree : AVL_Tree K V
  deriving DecidableEq, Repr

section Queue

variable {K V : Type} [LinearOrder K]

/-- The defaulted default constructor (line 10). -/
def PriorityQueue.new : PriorityQueue V K := { _tree := AVL_Tree.empty }

/-- `top` (line 17): `_tree.find_max().second`. -/
def PriorityQueue.top (q : PriorityQueue V K) : Except Error V :=
  match find_max q._tree with
  | .error e => .error e
  | .ok (_, v) => .ok v

/-- `pop` (lines 44-52): `mx = _tree.find_max(); ret = move(mx.second);
_tree.erase(mx.first); return ret`. -/
def PriorityQueue.pop (q : PriorityQueue V K) : PriorityQueue V K × Except Error V :=
  match find_max q._tree with
  | .error e => (q, .error e)
  | .ok (k, v) =>
    match erase q._tree k with
    | (t1, .error e) => ({ _tree := t1 }, .error e)
    | (t1, .ok ()) => ({ _tree := t1 }, .ok v)

/-- `clear` (line 19). -/
def PriorityQueue.clear (q : PriorityQueue V K) : PriorityQueue V K :=
  { _tree := AVL.clear q._tree }

/-- `size` (line 21). -/
def PriorityQueue.size (q : PriorityQueue V K) : Nat := AVL.size q._tree

/-- `empty` (line 22): `_tree.size() == 0`. -/
def PriorityQueue.empty (q : PriorityQueue V K) : Bool := AVL.size q._tree == 0

end Queue

section SpecFunctions

variable {K V : Type}

/-- The subtree with `f` applied to the value of every node, and nothing else
changed. -/
def map_values (f : V → V) : Node K V → Node K V
  | .null => .null
  | .node k v h l r => .node k (f v) h (map_values f l) (map_values f r)

end SpecFunctions

section SpecPredicates

variable {K V : Type}

/-- On the tree `tr` the selector `sel` visits as the walk over the parts `a`,
`b`, `c` does: `const_traversal` and `traversal` invoke any visitor on the
entries of that walk, in its order and with the values the tree held before the
call, and the walk lists every node exactly once. -/
def VisitsAs (tr : AVL_Tree K V) (sel : traversal_type) (a b c : Slot) : Prop :=
  (∀ (σ : Type) (func : K → V → σ → σ) (s : σ),
      const_traversal tr sel func s =
        (walk a b c tr._root).foldl (fun s e => func e.1 e.2 s) s) ∧
    (∀ (σ : Type) (func : K → V → σ → V × σ) (s : σ),
      (traversal tr sel func s).2 =
        (walk a b c tr._root).foldl (fun s e => (func e.1 e.2 s).2) s) ∧
    const_traversal tr sel record [] = walk a b c tr._root ∧
    (traversal tr sel record_mut []).2 = walk a b c tr._root ∧
    (walk a b c tr._root).Perm (toList tr._root) ∧
    (walk a b c tr._root).length = _calc_size tr._root

/-- `q` is `p` or one of the subtrees hanging below a node of `p`. -/
def IsSubtreeOf (q : Node K V) : Node K V → Prop
  | .null => q = .null
  | .node k v h l r => q = .node k v h l r ∨ IsSubtreeOf q l ∨ IsSubtreeOf q r

end SpecPredicates

/-! ## Move construction and move assignment -/

section Moves

variable {K V : Type}

/-- The move constructor (lines 166-173): `_root(Tree._root), _size(Tree._size)`,
then `Tree._root = nullptr; Tree._size = 0`.  The pair is the constructed tree
and the argument after the call. -/
def move_construct (Tree : AVL_Tree K V) : AVL_Tree K V × AVL_Tree K V :=
  ({ _root := Tree._root, _size := Tree._size }, { _root := .null, _size := 0 })

/-- Move assignment (lines 175-184), `self = std::move(Tree)` with `Tree` another
object than `self`: `delete _root; _root = Tree._root; _size = Tree._size;
Tree._root = nullptr; Tree._size = 0`.  The pair is `self` and the argument
after the call; the nodes `self` held before are freed. -/
def move_assign (_self Tree : AVL_Tree K V) : AVL_Tree K V × AVL_Tree K V :=
  ({ _root := Tree._root, _size := Tree._size }, { _root := .null, _size := 0 })

end Moves

/-! ## Copy assignment -/

section CopyAssign

variable {K V : Type}

/-- Copy assignment (lines 158-164), `self = Tree` with `Tree` another object
than `self`: `delete _root; _root = new Node(Tree._root); return *this;`.
`_size` is not written, `self` keeps the one it had; the copy constructor
(line 155) and move assignment (line 180) take `Tree._size`.
`new Node(Tree._root)` reads through the pointer with no check; `none` stands
for that dereference when `Tree` has no root. -/
def copy_assign (_self Tree : AVL_Tree K V) : Option (AVL_Tree K V) :=
  match Tree._root with
  | .null => none
  | .node k v h l r =>
    some { _root := Node.copy (.node k v h l r), _size := _self._size }

end CopyAssign

/-- The tree `a` after `AVL_Tree<int,int> a; a.insert(1, 1);`. -/
def one_entry_tree : AVL_Tree Int Int :=
  (insert AVL_Tree.empty 1 1).1

/-- The tree `tree` of `test_avl_tree_basics` (tests.hpp lines 71-74): built
from the pairs `(-1, 1)` and `(-2, 2)`, inserted in that order. -/
def basics_tree : AVL_Tree Int Int :=
  (insert_all AVL_Tree.empty [(-1, 1), (-2, 2)]).1

/-- `tree` after `tree.get(-1) = -1` (tests.hpp line 78), a store through the
reference `get` returns. -/
def basics_tree_stored : AVL_Tree Int Int :=
  { _root := _store basics_tree._root (-1) (-1), _size := basics_tree._size }

/-! ## Heights, rotations and `_balance` -/

section Balance

variable {K V : Type}

theorem height_null : _height (Node.null : Node K V) = 0 := rfl

theorem height_node (k : K) (v : V) (h : Nat) (l r : Node K V) :
    _height (Node.node k v h l r) = h := rfl

theorem factor_node (k : K) (v : V) (h : Nat) (l r : Node K V) :
    _factor (Node.node k v h l r) = (_height r : Int) - (_height l : Int) := rfl

theorem fixheight_node (k : K) (v : V) (h : Nat) (l r : Node K V) :
    _fixheight (Node.node k v h l r) =
      Node.node k v (max (_height l) (_height r) + 1) l r := rfl

theorem toList_null : toList (Node.null : Node K V) = [] := rfl

theorem toList_node (k : K) (v : V) (h : Nat) (l r : Node K V) :
    toList (Node.node k v h l r) = toList l ++ (k, v) :: toList r := rfl

theorem keys_null : keys (Node.null : Node K V) = [] := rfl

theorem keys_node (k : K) (v : V) (h : Nat) (l r : Node K V) :
    keys (Node.node k v h l r) = keys l ++ k :: keys r := by
  simp [keys, toList]

theorem mem_keys_node (x k : K) (v : V) (h : Nat) (l r : Node K V) :
    x ∈ keys (Node.node k v h l r) ↔ x ∈ keys l ∨ x = k ∨ x ∈ keys r := by
  simp [keys_node]

theorem calc_size_eq_length (p : Node K V) : _calc_size p = (toList p).length := by
  induction p with
  | null => rfl
  | node k v h l r ihl ihr => simp [_calc_size, toList, ihl, ihr]; omega

theorem toList_eq_nil_iff (p : Node K V) : toList p = [] ↔ p = Node.null := by
  cases p <;> simp [toList]

theorem toList_fixheight (p : Node K V) : toList (_fixheight p) = toList p := by
  cases p <;> rfl

theorem toList_rotate_right (p : Node K V) : toList (_rotate_right p) = toList p := by
  unfold _rotate_right
  split
  · simp [fixheight_node, toList_node]
  · rfl

theorem toList_rotate_left (p : Node K V) : toList (_rotate_left p) = toList p := by
  unfold _rotate_left
  split
  · simp [fixheight_node, toList_node]
  · rfl

/-- `_balance` keeps the left-to-right sequence of entries. -/
theorem toList_balance (p : Node K V) : toList (_balance p) = toList p := by
  cases p with
  | null => rfl
  | node k v h l r =>
    unfold _balance
    simp only [fixheight_node]
    split_ifs <;>
      simp [toList_rotate_left, toList_rotate_right, Node.setRight, Node.setLeft,
        Node.right, Node.left, toList_node]

theorem keys_balance (p : Node K V) : keys (_balance p) = keys p := by
  simp [keys, toList_balance]

/-- `_balance` on a node whose subtrees are AVL trees with heights at most 2
apart: the result is an AVL tree, its height is the larger child height or one
more, and it is one more when the subtrees were at most 1 apart. -/
theorem balance_avl (k : K) (v : V) (h : Nat) (l r : Node K V)
    (hl : IsAVL l) (hr : IsAVL r)
    (hd : _height l ≤ _height r + 2 ∧ _height r ≤ _height l + 2) :
    IsAVL (_balance (.node k v h l r)) ∧
      _height (_balance (.node k v h l r)) ≤ max (_height l) (_height r) + 1 ∧
      max (_height l) (_height r) ≤ _height (_balance (.node k v h l r)) ∧
      ((_height l ≤ _height r + 1 ∧ _height r ≤ _height l + 1) →
        _height (_balance (.node k v h l r)) = max (_height l) (_height r) + 1) := by
  unfold _balance
  simp only [fixheight_node, factor_node]
  split_ifs with h1 h2 h3 h4
  · cases r with
    | null => simp only [height_null] at h1; omega
    | node rk rv rh rl rr =>
      cases rl with
      | null => simp only [Node.right, factor_node, height_null] at h2; omega
      | node ak av ah al ar =>
        simp only [IsAVL, height_node, height_null] at hl hr hd h1 h2 ⊢
        simp only [Node.right, Node.setRight, _rotate_right, _rotate_left, fixheight_node,
          height_node, IsAVL, factor_node] at h1 h2 ⊢
        and_intros <;> first | omega | tauto
  · cases r with
    | null => simp only [height_null] at h1; omega
    | node rk rv rh rl rr =>
      simp only [IsAVL, height_node, height_null] at hl hr hd h1 h2 ⊢
      simp only [Node.right, Node.setRight, _rotate_right, _rotate_left, fixheight_node,
        height_node, IsAVL, factor_node] at h1 h2 ⊢
      and_intros <;> first | omega | tauto
  · cases l with
    | null => simp only [height_null] at h3; omega
    | node lk lv lh ll lr =>
      cases lr with
      | null => simp only [Node.left, factor_node, height_null] at h4; omega
      | node ak av ah al ar =>
        simp only [IsAVL, height_node, height_null] at hl hr hd h3 h4 ⊢
        simp only [Node.left, Node.setLeft, _rotate_right, _rotate_left, fixheight_node,
          height_node, IsAVL, factor_node] at h3 h4 ⊢
        and_intros <;> first | omega | tauto
  · cases l with
    | null => simp only [height_null] at h3; omega
    | node lk lv lh ll lr =>
      simp only [IsAVL, height_node, height_null] at hl hr hd h3 h4 ⊢
      simp only [Node.left, Node.setLeft, _rotate_right, _rotate_left, fixheight_node,
        height_node, IsAVL, factor_node] at h3 h4 ⊢
      and_intros <;> first | omega | tauto
  · simp only [IsAVL, height_node]
    and_intros <;> first | omega | tauto

theorem balance_fixheight (p : Node K V) : _balance (_fixheight p) = _balance p := by
  cases p <;> rfl

/-- The children that `_balance` and its rotations dereference are there: a
factor of 2 (or any positive factor) means a right child, a factor of -2 (or any
negative factor) a left child. -/
theorem factor_children (p : Node K V) :
    (0 < _factor p → p.right.isNull = false) ∧ (_factor p < 0 → p.left.isNull = false) := by
  cases p with
  | null => simp [_factor]
  | node k v h l r =>
    simp only [factor_node, Node.right, Node.left]
    constructor
    · intro hf
      cases r with
      | null => simp only [height_null] at hf; omega
      | node _ _ _ _ _ => rfl
    · intro hf
      cases l with
      | null => simp only [height_null] at hf; omega
      | node _ _ _ _ _ => rfl

end Balance

/-! ## `_insert` and the AVL invariant -/

section Ins
variable {K V : Type} [LinearOrder K]

/-- With `k` absent from the subtree, `_insert` returns. -/
theorem insert_ret_of_not_mem (p : Node K V) (k : K) (val : V) (hk : k ∉ keys p) :
    ∃ q, _insert p k val = Outcome.ret q := by
  induction p with
  | null => exact ⟨_, rfl⟩
  | node key v h l r ihl ihr =>
    rw [mem_keys_node] at hk
    push_neg at hk
    obtain ⟨hkl, hkk, hkr⟩ := hk
    obtain ⟨ql, hql⟩ := ihl hkl
    obtain ⟨qr, hqr⟩ := ihr hkr
    simp only [_insert, if_neg (Ne.symm hkk)]
    split_ifs
    · rw [hql]; exact ⟨_, rfl⟩
    · rw [hqr]; exact ⟨_, rfl⟩

/-- A returning `_insert` on an AVL tree gives an AVL tree whose height is the
old one or one more. -/
theorem insert_avl (p : Node K V) (k : K) (val : V) (hp : IsAVL p) :
    ∀ q, _insert p k val = Outcome.ret q →
      IsAVL q ∧ _height p ≤ _height q ∧ _height q ≤ _height p + 1 := by
  induction p with
  | null =>
    intro q hq
    simp only [_insert, Outcome.ret.injEq] at hq
    subst hq
    simp [IsAVL, _height]
  | node key v h l r ihl ihr =>
    intro q hq
    obtain ⟨hl, hr, hh, hd1, hd2⟩ := hp
    simp only [_insert] at hq
    split_ifs at hq with h1 h2
    · cases hins : _insert l k val with
      | thrown e mem => rw [hins] at hq; simp at hq
      | ret ql =>
        rw [hins] at hq
        simp only [Outcome.ret.injEq] at hq
        subst hq
        obtain ⟨hql, hb1, hb2⟩ := ihl hl ql hins
        rw [balance_fixheight]
        have hb := balance_avl key v h ql r hql hr (by omega)
        simp only [height_node]
        refine ⟨hb.1, ?_, ?_⟩
        · by_cases hc : _height ql ≤ _height r + 1 ∧ _height r ≤ _height ql + 1
          · have := hb.2.2.2 hc; omega
          · omega
        · by_cases hc : _height ql ≤ _height r + 1 ∧ _height r ≤ _height ql + 1
          · have := hb.2.2.2 hc; omega
          · omega
    · cases hins : _insert r k val with
      | thrown e mem => rw [hins] at hq; simp at hq
      | ret qr =>
        rw [hins] at hq
        simp only [Outcome.ret.injEq] at hq
        subst hq
        obtain ⟨hqr, hb1, hb2⟩ := ihr hr qr hins
        rw [balance_fixheight]
        have hb := balance_avl key v h l qr hl hqr (by omega)
        simp only [height_node]
        refine ⟨hb.1, ?_, ?_⟩
        · by_cases hc : _height l ≤ _height qr + 1 ∧ _height qr ≤ _height l + 1
          · have := hb.2.2.2 hc; omega
          · omega
        · by_cases hc : _height l ≤ _height qr + 1 ∧ _height qr ≤ _height l + 1
          · have := hb.2.2.2 hc; omega
          · omega

end Ins

/-! ## `_remove` and the AVL invariant -/

section RemoveMin
variable {K V : Type}

/-- On a node, `_find_min` returns a node. -/
theorem find_min_node (k : K) (v : V) (h : Nat) (l r : Node K V) :
    ∃ mk mv mh ml mr, _find_min (Node.node k v h l r) = Node.node mk mv mh ml mr := by
  induction l generalizing k v h r with
  | null => exact ⟨k, v, h, _, r, rfl⟩
  | node lk lv lh ll lr ihl _ =>
    obtain ⟨mk, mv, mh, ml, mr, hm⟩ := ihl lk lv lh lr
    exact ⟨mk, mv, mh, ml, mr, by rw [_find_min]; exact hm⟩

theorem remove_min_node_node (k : K) (v : V) (h : Nat) (lk : K) (lv : V) (lh : Nat)
    (ll lr r : Node K V) :
    _remove_min (Node.node k v h (Node.node lk lv lh ll lr) r) =
      _balance (Node.node k v h (_remove_min (Node.node lk lv lh ll lr)) r) := rfl

/-- `_remove_min` on an AVL tree gives an AVL tree whose height is the old one
or one less. -/
theorem remove_min_avl (p : Node K V) (hp : IsAVL p) :
    IsAVL (_remove_min p) ∧ _height (_remove_min p) ≤ _height p ∧
      _height p ≤ _height (_remove_min p) + 1 := by
  induction p with
  | null => simp [_remove_min, IsAVL]
  | node k v h l r ihl _ =>
    obtain ⟨hl, hr, hh, hd1, hd2⟩ := hp
    cases l with
    | null =>
      simp only [_remove_min, height_node, height_null] at hh hd2 ⊢
      exact ⟨hr, by omega, by omega⟩
    | node lk lv lh ll lr =>
      obtain ⟨hm, hb1, hb2⟩ := ihl hl
      rw [remove_min_node_node]
      have hb := balance_avl k v h (_remove_min (Node.node lk lv lh ll lr)) r hm hr (by omega)
      simp only [height_node] at hb1 hb2 hh hd1 hd2 ⊢
      refine ⟨hb.1, ?_, ?_⟩
      · by_cases hc : _height (_remove_min (Node.node lk lv lh ll lr)) ≤ _height r + 1 ∧
            _height r ≤ _height (_remove_min (Node.node lk lv lh ll lr)) + 1
        · have := hb.2.2.2 hc; omega
        · omega
      · by_cases hc : _height (_remove_min (Node.node lk lv lh ll lr)) ≤ _height r + 1 ∧
            _height r ≤ _height (_remove_min (Node.node lk lv lh ll lr)) + 1
        · have := hb.2.2.2 hc; omega
        · omega

end RemoveMin

section Rem
variable {K V : Type} [LinearOrder K]

/-- A returning `_remove` on an AVL tree gives an AVL tree whose height is the
old one or one less. -/
theorem remove_avl (p : Node K V) (k : K) (hp : IsAVL p) :
    ∀ q, _remove p k = Outcome.ret q →
      IsAVL q ∧ _height q ≤ _height p ∧ _height p ≤ _height q + 1 := by
  induction p with
  | null => intro q hq; simp [_remove] at hq
  | node key v h l r ihl ihr =>
    intro q hq
    obtain ⟨hl, hr, hh, hd1, hd2⟩ := hp
    simp only [_remove] at hq
    split_ifs at hq with h1 h2
    · cases hrem : _remove l k with
      | thrown e mem => rw [hrem] at hq; simp at hq
      | ret ql =>
        rw [hrem] at hq
        simp only [Outcome.ret.injEq] at hq
        subst hq
        obtain ⟨hql, hb1, hb2⟩ := ihl hl ql hrem
        have hb := balance_avl key v h ql r hql hr (by omega)
        simp only [height_node]
        refine ⟨hb.1, ?_, ?_⟩
        · by_cases hc : _height ql ≤ _height r + 1 ∧ _height r ≤ _height ql + 1
          · have := hb.2.2.2 hc; omega
          · omega
        · by_cases hc : _height ql ≤ _height r + 1 ∧ _height r ≤ _height ql + 1
          · have := hb.2.2.2 hc; omega
          · omega
    · cases hrem : _remove r k with
      | thrown e mem => rw [hrem] at hq; simp at hq
      | ret qr =>
        rw [hrem] at hq
        simp only [Outcome.ret.injEq] at hq
        subst hq
        obtain ⟨hqr, hb1, hb2⟩ := ihr hr qr hrem
        have hb := balance_avl key v h l qr hl hqr (by omega)
        simp only [height_node]
        refine ⟨hb.1, ?_, ?_⟩
        · by_cases hc : _height l ≤ _height qr + 1 ∧ _height qr ≤ _height l + 1
          · have := hb.2.2.2 hc; omega
          · omega
        · by_cases hc : _height l ≤ _height qr + 1 ∧ _height qr ≤ _height l + 1
          · have := hb.2.2.2 hc; omega
          · omega
    · cases r with
      | null =>
        simp only [Outcome.ret.injEq] at hq
        subst hq
        simp only [height_node, height_null] at hh hd1 hd2 ⊢
        exact ⟨hl, by omega, by omega⟩
      | node rk rv rh rl rr =>
        simp only [Outcome.ret.injEq] at hq
        subst hq
        obtain ⟨mk, mv, mh, ml, mr, hm⟩ := find_min_node rk rv rh rl rr
        obtain ⟨hrm, hb1, hb2⟩ := remove_min_avl (Node.node rk rv rh rl rr) hr
        rw [hm]
        simp only [Node.setRight, Node.setLeft]
        have hb := balance_avl mk mv mh l (_remove_min (Node.node rk rv rh rl rr)) hl hrm
          (by omega)
        simp only [height_node] at hb1 hb2 hh hd1 hd2 ⊢
        refine ⟨hb.1, ?_, ?_⟩
        · by_cases hc : _height l ≤ _height (_remove_min (Node.node rk rv rh rl rr)) + 1 ∧
              _height (_remove_min (Node.node rk rv rh rl rr)) ≤ _height l + 1
          · have := hb.2.2.2 hc; omega
          · omega
        · by_cases hc : _height l ≤ _height (_remove_min (Node.node rk rv rh rl rr)) + 1 ∧
              _height (_remove_min (Node.node rk rv rh rl rr)) ≤ _height l + 1
          · have := hb.2.2.2 hc; omega
          · omega

end Rem

/-! ## Search trees: `_find`, `_get` -/

section Keys
variable {K V : Type}

theorem fst_mem_keys {p : Node K V} {e : K × V} (he : e ∈ toList p) : e.1 ∈ keys p :=
  List.mem_map_of_mem Prod.fst he

theorem mem_keys_iff (p : Node K V) (x : K) : x ∈ keys p ↔ ∃ v, (x, v) ∈ toList p := by
  simp [keys]

end Keys

section Order
variable {K V : Type} [LinearOrder K]

/-- A search tree is one whose left-to-right key sequence is strictly increasing. -/
theorem isSearchTree_iff_pairwise (p : Node K V) :
    IsSearchTree p ↔ (keys p).Pairwise (· < ·) := by
  induction p with
  | null => simp [IsSearchTree, keys_null]
  | node k v h l r ihl ihr =>
    simp only [IsSearchTree, keys_node, List.pairwise_append, List.pairwise_cons, ihl, ihr,
      List.mem_cons]
    constructor
    · rintro ⟨hl, hr, h1, h2⟩
      refine ⟨hl, ⟨h2, hr⟩, ?_⟩
      rintro a ha b (rfl | hb)
      · exact h1 a ha
      · exact lt_trans (h1 a ha) (h2 b hb)
    · rintro ⟨hl, ⟨h2, hr⟩, h3⟩
      exact ⟨hl, hr, fun x hx => h3 x hx k (Or.inl rfl), h2⟩

theorem keys_nodup_of_isSearchTree (p : Node K V) (hp : IsSearchTree p) : (keys p).Nodup :=
  ((isSearchTree_iff_pairwise p).1 hp).imp (fun h => ne_of_lt h)

/-- The pointer `_find` returns is non-null only for a key of the tree. -/
theorem mem_keys_of_find (p : Node K V) (k : K) (h : (_find p k).isNull = false) :
    k ∈ keys p := by
  induction p with
  | null => simp [_find, Node.isNull] at h
  | node key v ht l r ihl ihr =>
    rw [mem_keys_node]
    simp only [_find] at h
    split_ifs at h with h1 h2 h3
    · exact Or.inr (Or.inl h1)
    · exact Or.inl (ihl h)
    · exact Or.inr (Or.inr (ihr h))
    · simp [Node.isNull] at h

/-- In a search tree `_find` reaches every key, and returns the node holding it. -/
theorem find_of_mem (p : Node K V) (k : K) (v : V) (hp : IsSearchTree p)
    (h : (k, v) ∈ toList p) :
    ∃ ht l r, _find p k = Node.node k v ht l r := by
  induction p with
  | null => simp [toList] at h
  | node key val ht l r ihl ihr =>
    obtain ⟨hl, hr, h1, h2⟩ := hp
    simp only [toList_node, List.mem_append, List.mem_cons, Prod.mk.injEq] at h
    simp only [_find]
    rcases h with h | ⟨rfl, rfl⟩ | h
    · have hlt : k < key := h1 k (fst_mem_keys h)
      rw [if_neg (ne_of_lt hlt), if_pos hlt]
      exact ihl hl h
    · rw [if_pos rfl]; exact ⟨_, _, _, rfl⟩
    · have hlt : key < k := h2 k (fst_mem_keys h)
      rw [if_neg (ne_of_gt hlt), if_neg (not_lt_of_gt hlt), if_pos hlt]
      exact ihr hr h

theorem find_isNull_iff (p : Node K V) (k : K) (hp : IsSearchTree p) :
    (_find p k).isNull = false ↔ k ∈ keys p := by
  constructor
  · exact mem_keys_of_find p k
  · intro h
    obtain ⟨v, hv⟩ := (mem_keys_iff p k).1 h
    obtain ⟨ht, l, r, hf⟩ := find_of_mem p k v hp hv
    rw [hf]; rfl

/-- `_get` and `_find` walk the same path: `_get` throws exactly when `_find`
returns null, and otherwise returns the same node. -/
theorem get_eq_find (p : Node K V) (k : K) :
    _get p k = if (_find p k).isNull then Except.error Error.out_of_range
      else Except.ok (_find p k) := by
  induction p with
  | null => rfl
  | node key v ht l r ihl ihr =>
    simp only [_get, _find]
    split_ifs with h1 h2 h3 h4 h5 h6 h7 <;>
      first
        | rfl
        | (simp [Node.isNull] at *; done)
        | (rw [ihl]; simp [*])
        | (rw [ihr]; simp [*]; done)
        | (exfalso; rcases lt_trichotomy k key with h | h | h <;> simp_all)

end Order

/-! ## `_insert` on search trees -/

section OrderOps
variable {K V : Type} [LinearOrder K]

/-- `_insert` throws only `std::runtime_error`, and has written nothing when it does. -/
theorem insert_thrown (p : Node K V) (k : K) (val : V) :
    ∀ e mem, _insert p k val = Outcome.thrown e mem → e = Error.runtime_error ∧ mem = p := by
  induction p with
  | null => intro e mem h; simp [_insert] at h
  | node key v ht l r ihl ihr =>
    intro e mem h
    simp only [_insert] at h
    split_ifs at h with h1 h2
    · simp only [Outcome.thrown.injEq] at h
      exact ⟨h.1.symm, h.2.symm⟩
    · cases hins : _insert l k val with
      | ret q => rw [hins] at h; simp at h
      | thrown e1 m1 =>
        rw [hins] at h
        simp only [Outcome.thrown.injEq] at h
        obtain ⟨he, hm⟩ := ihl e1 m1 hins
        rw [← h.1, ← h.2, he, hm]
        exact ⟨rfl, rfl⟩
    · cases hins : _insert r k val with
      | ret q => rw [hins] at h; simp at h
      | thrown e1 m1 =>
        rw [hins] at h
        simp only [Outcome.thrown.injEq] at h
        obtain ⟨he, hm⟩ := ihr e1 m1 hins
        rw [← h.1, ← h.2, he, hm]
        exact ⟨rfl, rfl⟩

/-- `_insert` throws exactly when `_find` finds the key (on any tree: both walk
the same path). -/
theorem insert_thrown_of_find (p : Node K V) (k : K) (val : V)
    (h : (_find p k).isNull = false) :
    _insert p k val = Outcome.thrown Error.runtime_error p := by
  induction p with
  | null => simp [_find, Node.isNull] at h
  | node key v ht l r ihl ihr =>
    simp only [_find] at h
    simp only [_insert]
    split_ifs at h with h1 h2 h3
    · rw [if_pos h1.symm]
    · rw [if_neg (Ne.symm h1), if_pos h2, ihl h]
    · rw [if_neg (Ne.symm h1), if_neg h2, ihr h]
    · simp [Node.isNull] at h

/-- `_insert` returns when `_find` does not find the key. -/
theorem insert_ret_of_find (p : Node K V) (k : K) (val : V)
    (h : (_find p k).isNull = true) :
    ∃ q, _insert p k val = Outcome.ret q := by
  induction p with
  | null => exact ⟨_, rfl⟩
  | node key v ht l r ihl ihr =>
    simp only [_find] at h
    simp only [_insert]
    split_ifs at h with h1 h2 h3
    · simp [Node.isNull] at h
    · obtain ⟨q, hq⟩ := ihl h
      rw [if_neg (Ne.symm h1), if_pos h2, hq]; exact ⟨_, rfl⟩
    · obtain ⟨q, hq⟩ := ihr h
      rw [if_neg (Ne.symm h1), if_neg h2, hq]; exact ⟨_, rfl⟩
    · exfalso
      rcases lt_trichotomy k key with h4 | h4 | h4
      · exact h2 h4
      · exact h1 h4
      · exact h3 h4

/-- A returning `_insert` on a search tree puts `(k, val)` at its sorted place
and keeps every other entry. -/
theorem insert_toList (p : Node K V) (k : K) (val : V) (hp : IsSearchTree p) :
    ∀ q, _insert p k val = Outcome.ret q →
      toList q = (toList p).filter (fun e => decide (e.1 < k)) ++
        (k, val) :: (toList p).filter (fun e => decide (k < e.1)) := by
  induction p with
  | null =>
    intro q hq
    simp only [_insert, Outcome.ret.injEq] at hq
    subst hq
    simp [toList]
  | node key v ht l r ihl ihr =>
    intro q hq
    obtain ⟨hl, hr, h1, h2⟩ := hp
    have h1' : ∀ e ∈ toList l, e.1 < key := fun e he => h1 e.1 (fst_mem_keys he)
    have h2' : ∀ e ∈ toList r, key < e.1 := fun e he => h2 e.1 (fst_mem_keys he)
    simp only [_insert] at hq
    split_ifs at hq with h3 h4
    · cases hins : _insert l k val with
      | thrown e mem => rw [hins] at hq; simp at hq
      | ret ql =>
        rw [hins] at hq
        simp only [Outcome.ret.injEq] at hq
        subst hq
        rw [toList_balance, toList_fixheight, toList_node, ihl hl ql hins, toList_node]
        have e1 : (toList r).filter (fun e => decide (e.1 < k)) = [] :=
          List.filter_eq_nil_iff.2 (fun e he => by
            simpa using le_of_lt (lt_trans h4 (h2' e he)))
        have e2 : (toList r).filter (fun e => decide (k < e.1)) = toList r :=
          List.filter_eq_self.2 (fun e he => by simpa using lt_trans h4 (h2' e he))
        simp [List.filter_append, List.filter_cons, e1, e2, h4, not_lt_of_gt h4]
    · have h5 : key < k := lt_of_le_of_ne (not_lt.1 h4) h3
      cases hins : _insert r k val with
      | thrown e mem => rw [hins] at hq; simp at hq
      | ret qr =>
        rw [hins] at hq
        simp only [Outcome.ret.injEq] at hq
        subst hq
        rw [toList_balance, toList_fixheight, toList_node, ihr hr qr hins, toList_node]
        have e1 : (toList l).filter (fun e => decide (e.1 < k)) = toList l :=
          List.filter_eq_self.2 (fun e he => by simpa using lt_trans (h1' e he) h5)
        have e2 : (toList l).filter (fun e => decide (k < e.1)) = [] :=
          List.filter_eq_nil_iff.2 (fun e he => by
            simpa using le_of_lt (lt_trans (h1' e he) h5))
        simp [List.filter_append, List.filter_cons, e1, e2, h5, not_lt_of_gt h5]

end OrderOps

/-! ## `_remove` on search trees -/

section MinSpec
variable {K V : Type}

/-- On a node, `_find_min` returns the first entry of the left-to-right sequence
and `_remove_min` leaves the rest of it. -/
theorem find_min_spec (k : K) (v : V) (h : Nat) (l r : Node K V) :
    ∃ mk mv mh ml mr, _find_min (Node.node k v h l r) = Node.node mk mv mh ml mr ∧
      toList (Node.node k v h l r) =
        (mk, mv) :: toList (_remove_min (Node.node k v h l r)) := by
  induction l generalizing k v h r with
  | null => exact ⟨k, v, h, _, r, rfl, rfl⟩
  | node lk lv lh ll lr ihl _ =>
    obtain ⟨mk, mv, mh, ml, mr, hm, ht⟩ := ihl lk lv lh lr
    refine ⟨mk, mv, mh, ml, mr, by rw [_find_min]; exact hm, ?_⟩
    rw [remove_min_node_node, toList_balance, toList_node k v h, toList_node k v h, ht]
    rfl

end MinSpec

section RemOrder
variable {K V : Type} [LinearOrder K]

/-- `_remove` throws only `std::out_of_range`, and has written nothing when it does. -/
theorem remove_thrown (p : Node K V) (k : K) :
    ∀ e mem, _remove p k = Outcome.thrown e mem → e = Error.out_of_range ∧ mem = p := by
  induction p with
  | null =>
    intro e mem h
    simp only [_remove, Outcome.thrown.injEq] at h
    exact ⟨h.1.symm, h.2.symm⟩
  | node key v ht l r ihl ihr =>
    intro e mem h
    simp only [_remove] at h
    split_ifs at h with h1 h2
    · cases hrem : _remove l k with
      | ret q => rw [hrem] at h; simp at h
      | thrown e1 m1 =>
        rw [hrem] at h
        simp only [Outcome.thrown.injEq] at h
        obtain ⟨he, hm⟩ := ihl e1 m1 hrem
        rw [← h.1, ← h.2, he, hm]
        exact ⟨rfl, rfl⟩
    · cases hrem : _remove r k with
      | ret q => rw [hrem] at h; simp at h
      | thrown e1 m1 =>
        rw [hrem] at h
        simp only [Outcome.thrown.injEq] at h
        obtain ⟨he, hm⟩ := ihr e1 m1 hrem
        rw [← h.1, ← h.2, he, hm]
        exact ⟨rfl, rfl⟩
    · cases r <;> simp at h

/-- `_remove` throws when `_find` does not find the key (on any tree). -/
theorem remove_thrown_of_find (p : Node K V) (k : K) (h : (_find p k).isNull = true) :
    _remove p k = Outcome.thrown Error.out_of_range p := by
  induction p with
  | null => rfl
  | node key v ht l r ihl ihr =>
    simp only [_find] at h
    simp only [_remove]
    split_ifs at h with h1 h2 h3
    · simp [Node.isNull] at h
    · rw [if_pos h2, ihl h]
    · rw [if_neg h2, if_pos h3, ihr h]
    · exfalso
      rcases lt_trichotomy k key with h4 | h4 | h4
      · exact h2 h4
      · exact h1 h4
      · exact h3 h4

/-- `_remove` returns when `_find` finds the key (on any tree). -/
theorem remove_ret_of_find (p : Node K V) (k : K) (h : (_find p k).isNull = false) :
    ∃ q, _remove p k = Outcome.ret q := by
  induction p with
  | null => simp [_find, Node.isNull] at h
  | node key v ht l r ihl ihr =>
    simp only [_find] at h
    simp only [_remove]
    split_ifs at h with h1 h2 h3
    · subst h1
      rw [if_neg (lt_irrefl _), if_neg (lt_irrefl _)]
      cases r <;> exact ⟨_, rfl⟩
    · obtain ⟨q, hq⟩ := ihl h
      rw [if_pos h2, hq]; exact ⟨_, rfl⟩
    · obtain ⟨q, hq⟩ := ihr h
      rw [if_neg h2, if_pos h3, hq]; exact ⟨_, rfl⟩
    · simp [Node.isNull] at h

/-- A returning `_remove` on a search tree drops the entry of `k` and keeps
every other entry in place. -/
theorem remove_toList (p : Node K V) (k : K) (hp : IsSearchTree p) :
    ∀ q, _remove p k = Outcome.ret q →
      toList q = (toList p).filter (fun e => decide (e.1 ≠ k)) := by
  induction p with
  | null => intro q hq; simp [_remove] at hq
  | node key v ht l r ihl ihr =>
    intro q hq
    obtain ⟨hl, hr, h1, h2⟩ := hp
    have h1' : ∀ e ∈ toList l, e.1 < key := fun e he => h1 e.1 (fst_mem_keys he)
    have h2' : ∀ e ∈ toList r, key < e.1 := fun e he => h2 e.1 (fst_mem_keys he)
    simp only [_remove] at hq
    split_ifs at hq with h3 h4
    · cases hrem : _remove l k with
      | thrown e mem => rw [hrem] at hq; simp at hq
      | ret ql =>
        rw [hrem] at hq
        simp only [Outcome.ret.injEq] at hq
        subst hq
        rw [toList_balance, toList_node, ihl hl ql hrem, toList_node]
        have e2 : (toList r).filter (fun e => !decide (e.1 = k)) = toList r :=
          List.filter_eq_self.2 (fun e he => by
            simpa using ne_of_gt (lt_trans h3 (h2' e he)))
        simp [List.filter_append, List.filter_cons, e2, ne_of_gt h3]
    · cases hrem : _remove r k with
      | thrown e mem => rw [hrem] at hq; simp at hq
      | ret qr =>
        rw [hrem] at hq
        simp only [Outcome.ret.injEq] at hq
        subst hq
        rw [toList_balance, toList_node, ihr hr qr hrem, toList_node]
        have e1 : (toList l).filter (fun e => !decide (e.1 = k)) = toList l :=
          List.filter_eq_self.2 (fun e he => by
            simpa using ne_of_lt (lt_trans (h1' e he) h4))
        simp [List.filter_append, List.filter_cons, e1, ne_of_lt h4]
    · have hk : k = key := le_antisymm (not_lt.1 h4) (not_lt.1 h3)
      subst hk
      have e1 : (toList l).filter (fun e => !decide (e.1 = k)) = toList l :=
        List.filter_eq_self.2 (fun e he => by simpa using ne_of_lt (h1' e he))
      have e2 : (toList r).filter (fun e => !decide (e.1 = k)) = toList r :=
        List.filter_eq_self.2 (fun e he => by simpa using ne_of_gt (h2' e he))
      cases r with
      | null =>
        simp only [Outcome.ret.injEq] at hq
        subst hq
        simp [toList_node, toList_null, List.filter_append, List.filter_cons, e1]
      | node rk rv rh rl rr =>
        simp only [Outcome.ret.injEq] at hq
        subst hq
        obtain ⟨mk, mv, mh, ml, mr, hm, hlist⟩ := find_min_spec rk rv rh rl rr
        rw [hm]
        simp only [Node.setRight, Node.setLeft]
        rw [toList_balance, toList_node mk mv mh, ← hlist, toList_node k v ht]
        simp [List.filter_append, List.filter_cons, e1, e2]

end RemOrder

/-! ## Tree-level calls -/

section TreeLevel
variable {K V : Type} [LinearOrder K]

/-- `insert` in terms of `_insert`; on the empty tree the node `insert` makes
itself is the one `_insert` would have made. -/
theorem insert_eq (t : AVL_Tree K V) (k : K) (v : V) :
    insert t k v =
      match _insert t._root k v with
      | .thrown e mem => ({ _root := mem, _size := t._size }, .error e)
      | .ret q => ({ _root := q, _size := t._size + 1 }, .ok ()) := by
  obtain ⟨root, sz⟩ := t
  cases root <;> rfl

/-- `erase` in terms of `_remove`. -/
theorem erase_eq (t : AVL_Tree K V) (k : K) :
    erase t k =
      if t._root.isNull then (t, .error .logic_error)
      else
        match _remove t._root k with
        | .thrown e mem => ({ _root := mem, _size := t._size }, .error e)
        | .ret q => ({ _root := q, _size := size_t_dec t._size }, .ok ()) := by
  obtain ⟨root, sz⟩ := t
  cases root <;> rfl

/-- Below `SIZE_MAX` the increment `++_size` of a `size_t` does not wrap: it is
`_size + 1`, the value `insert` is embedded with. -/
theorem size_t_inc_eq_mod (n : Nat) (h : n < SIZE_MAX) :
    n + 1 = (n + 1) % (SIZE_MAX + 1) := by
  unfold SIZE_MAX at *
  omega

/-- The decrement of a positive `size_t`. -/
theorem size_t_dec_pos (n : Nat) (h : 0 < n) : size_t_dec n = n - 1 := by
  unfold size_t_dec
  rw [if_neg (by omega)]

/-- The decrement of 0 wraps. -/
theorem size_t_dec_zero : size_t_dec 0 = SIZE_MAX := rfl

/-- On every value of `size_t` the decrement is the one of arithmetic modulo
`SIZE_MAX + 1`. -/
theorem size_t_dec_eq_mod (n : Nat) (h : n ≤ SIZE_MAX) :
    size_t_dec n = (n + SIZE_MAX) % (SIZE_MAX + 1) := by
  unfold size_t_dec SIZE_MAX at *
  split_ifs with h0
  · subst h0; rfl
  · omega

theorem isSearchTree_iff_toList (p : Node K V) :
    IsSearchTree p ↔ (toList p).Pairwise (fun a b => a.1 < b.1) := by
  rw [isSearchTree_iff_pairwise, keys, List.pairwise_map]

/-- In a search tree a key is bound to one value. -/
theorem value_unique (p : Node K V) (hp : IsSearchTree p) (k : K) (v w : V)
    (hv : (k, v) ∈ toList p) (hw : (k, w) ∈ toList p) : v = w := by
  obtain ⟨ht, l, r, hf⟩ := find_of_mem p k v hp hv
  obtain ⟨ht', l', r', hf'⟩ := find_of_mem p k w hp hw
  rw [hf] at hf'
  simp only [Node.node.injEq] at hf'
  exact hf'.2.1

theorem find_eq_true_iff (t : AVL_Tree K V) (k : K) (hs : IsSearchTree t._root) :
    find t k = true ↔ k ∈ keys t._root := by
  rw [← find_isNull_iff t._root k hs]
  simp [find]

theorem find_eq_false_of_not_mem (t : AVL_Tree K V) (k : K) (hk : k ∉ keys t._root) :
    find t k = false := by
  cases h : (_find t._root k).isNull with
  | true => simp [find, h]
  | false => exact absurd (mem_keys_of_find t._root k h) hk

/-- `get` on a search tree returns the value bound to a present key. -/
theorem get_of_mem (t : AVL_Tree K V) (k : K) (v : V) (hs : IsSearchTree t._root)
    (h : (k, v) ∈ toList t._root) : get t k = Except.ok v := by
  obtain ⟨ht, l, r, hf⟩ := find_of_mem t._root k v hs h
  simp [get, get_eq_find, hf, Node.isNull]

/-- `get` throws `std::out_of_range` for an absent key. -/
theorem get_of_not_mem (t : AVL_Tree K V) (k : K) (hk : k ∉ keys t._root) :
    get t k = Except.error Error.out_of_range := by
  have h : (_find t._root k).isNull = true := by
    cases h : (_find t._root k).isNull with
    | true => rfl
    | false => exact absurd (mem_keys_of_find t._root k h) hk
  simp [get, get_eq_find, h]

/-- `get` returns only a value that the tree binds to the key. -/
theorem mem_of_get (t : AVL_Tree K V) (k : K) (v : V) (h : get t k = Except.ok v) :
    (k, v) ∈ toList t._root := by
  obtain ⟨root, sz⟩ := t
  simp only [get] at h
  induction root with
  | null => simp [_get] at h
  | node key val ht l r ihl ihr =>
    simp only [_get] at h
    simp only [toList_node, List.mem_append, List.mem_cons]
    split_ifs at h with h1 h2
    · simp only [Except.ok.injEq] at h
      exact Or.inr (Or.inl (by rw [h1, h]))
    · exact Or.inl (ihl h)
    · exact Or.inr (Or.inr (ihr h))

/-- A returning `_insert` keeps a search tree a search tree. -/
theorem insert_isSearchTree (p : Node K V) (k : K) (val : V) (hp : IsSearchTree p)
    (q : Node K V) (hq : _insert p k val = Outcome.ret q) : IsSearchTree q := by
  have hl := insert_toList p k val hp q hq
  rw [isSearchTree_iff_toList] at hp ⊢
  rw [hl, List.pairwise_append]
  refine ⟨hp.filter _, List.pairwise_cons.2 ⟨?_, hp.filter _⟩, ?_⟩
  · intro e he
    simpa using (List.mem_filter.1 he).2
  · intro a ha b hb
    have ha' : a.1 < k := by simpa using (List.mem_filter.1 ha).2
    rcases List.mem_cons.1 hb with rfl | hb
    · exact ha'
    · have hb' : k < b.1 := by simpa using (List.mem_filter.1 hb).2
      exact lt_trans ha' hb'

/-- A returning `_remove` keeps a search tree a search tree. -/
theorem remove_isSearchTree (p : Node K V) (k : K) (hp : IsSearchTree p)
    (q : Node K V) (hq : _remove p k = Outcome.ret q) : IsSearchTree q := by
  have hl := remove_toList p k hp q hq
  rw [isSearchTree_iff_toList] at hp ⊢
  rw [hl]
  exact hp.filter _

/-- A returning `_insert` adds one node. -/
theorem insert_calc_size (p : Node K V) (k : K) (val : V) :
    ∀ q, _insert p k val = Outcome.ret q → _calc_size q = _calc_size p + 1 := by
  induction p with
  | null =>
    intro q hq
    simp only [_insert, Outcome.ret.injEq] at hq
    subst hq
    rfl
  | node key v ht l r ihl ihr =>
    intro q hq
    simp only [_insert] at hq
    split_ifs at hq with h1 h2
    · cases hins : _insert l k val with
      | thrown e mem => rw [hins] at hq; simp at hq
      | ret ql =>
        rw [hins] at hq
        simp only [Outcome.ret.injEq] at hq
        subst hq
        have := ihl ql hins
        simp only [calc_size_eq_length, toList_balance, toList_fixheight, toList_node,
          List.length_append, List.length_cons] at this ⊢
        omega
    · cases hins : _insert r k val with
      | thrown e mem => rw [hins] at hq; simp at hq
      | ret qr =>
        rw [hins] at hq
        simp only [Outcome.ret.injEq] at hq
        subst hq
        have := ihr qr hins
        simp only [calc_size_eq_length, toList_balance, toList_fixheight, toList_node,
          List.length_append, List.length_cons] at this ⊢
        omega

/-- A returning `_remove` takes one node away. -/
theorem remove_calc_size (p : Node K V) (k : K) :
    ∀ q, _remove p k = Outcome.ret q → _calc_size q + 1 = _calc_size p := by
  induction p with
  | null => intro q hq; simp [_remove] at hq
  | node key v ht l r ihl ihr =>
    intro q hq
    simp only [_remove] at hq
    split_ifs at hq with h1 h2
    · cases hrem : _remove l k with
      | thrown e mem => rw [hrem] at hq; simp at hq
      | ret ql =>
        rw [hrem] at hq
        simp only [Outcome.ret.injEq] at hq
        subst hq
        have := ihl ql hrem
        simp only [calc_size_eq_length, toList_balance, toList_node,
          List.length_append, List.length_cons] at this ⊢
        omega
    · cases hrem : _remove r k with
      | thrown e mem => rw [hrem] at hq; simp at hq
      | ret qr =>
        rw [hrem] at hq
        simp only [Outcome.ret.injEq] at hq
        subst hq
        have := ihr qr hrem
        simp only [calc_size_eq_length, toList_balance, toList_node,
          List.length_append, List.length_cons] at this ⊢
        omega
    · cases r with
      | null =>
        simp only [Outcome.ret.injEq] at hq
        subst hq
        simp [_calc_size]
      | node rk rv rh rl rr =>
        simp only [Outcome.ret.injEq] at hq
        subst hq
        obtain ⟨mk, mv, mh, ml, mr, hm, hlist⟩ := find_min_spec rk rv rh rl rr
        rw [hm]
        simp only [Node.setRight, Node.setLeft]
        rw [calc_size_eq_length, calc_size_eq_length, toList_balance, toList_node mk mv mh,
          ← hlist, toList_node key v ht]
        simp only [List.length_append, List.length_cons]
        omega

end TreeLevel

/-! ## Traversal order, skeleton and stores -/

section Skeleton
variable {K V : Type}

theorem keys_skeleton (p : Node K V) : keys (skeleton p) = keys p := by
  induction p with
  | null => rfl
  | node k v h l r ihl ihr => simp only [skeleton, keys_node, ihl, ihr]

theorem height_skeleton (p : Node K V) : _height (skeleton p) = _height p := by
  cases p <;> rfl

theorem calc_size_skeleton (p : Node K V) : _calc_size (skeleton p) = _calc_size p := by
  induction p with
  | null => rfl
  | node k v h l r ihl ihr => simp only [skeleton, _calc_size, ihl, ihr]

theorem isAVL_skeleton (p : Node K V) : IsAVL (skeleton p) ↔ IsAVL p := by
  induction p with
  | null => rfl
  | node k v h l r ihl ihr =>
    simp only [skeleton, IsAVL, ihl, ihr, height_skeleton]

theorem isSearchTree_skeleton [LinearOrder K] (p : Node K V) :
    IsSearchTree (skeleton p) ↔ IsSearchTree p := by
  rw [isSearchTree_iff_pairwise, isSearchTree_iff_pairwise, keys_skeleton]

/-- The left-to-right visit of a subtree: `LRtR` hands the visitor the entries
in the order of `toList`. -/
theorem const_traversal_LRtR {σ : Type} (func : K → V → σ → σ) (p : Node K V) (s : σ) :
    _const_traversal LRtR func p s = (toList p).foldl (fun s e => func e.1 e.2 s) s := by
  induction p generalizing s with
  | null => rfl
  | node k v h l r ihl ihr =>
    simp only [_const_traversal, LRtR, toList_node, List.foldl_append, List.foldl_cons, ihl, ihr]

/-- The right-to-left visit: `RRtL` hands the visitor the entries in the
reverse order of `toList`. -/
theorem const_traversal_RRtL {σ : Type} (func : K → V → σ → σ) (p : Node K V) (s : σ) :
    _const_traversal RRtL func p s =
      (toList p).reverse.foldl (fun s e => func e.1 e.2 s) s := by
  induction p generalizing s with
  | null => rfl
  | node k v h l r ihl ihr =>
    simp only [_const_traversal, RRtL, toList_node, List.reverse_append, List.reverse_cons,
      List.foldl_append, List.foldl_cons, List.foldl_nil, ihl, ihr, List.append_assoc]

theorem foldl_record (xs log : List (K × V)) :
    xs.foldl (fun s e => record e.1 e.2 s) log = log ++ xs := by
  induction xs generalizing log with
  | nil => simp
  | cons x xs ih => rw [List.foldl_cons, ih]; simp [record]

end Skeleton

section Store
variable {K V : Type} [LinearOrder K]

/-- A store through the reference leaves shape, keys and stored heights alone. -/
theorem skeleton_store (p : Node K V) (k : K) (w : V) :
    skeleton (_store p k w) = skeleton p := by
  induction p with
  | null => rfl
  | node key v h l r ihl ihr =>
    simp only [_store]
    split_ifs <;> simp only [skeleton, ihl, ihr]

theorem isSearchTree_store (p : Node K V) (k : K) (w : V) :
    IsSearchTree (_store p k w) ↔ IsSearchTree p := by
  rw [← isSearchTree_skeleton, skeleton_store, isSearchTree_skeleton]

theorem isAVL_store (p : Node K V) (k : K) (w : V) : IsAVL (_store p k w) ↔ IsAVL p := by
  rw [← isAVL_skeleton, skeleton_store, isAVL_skeleton]

theorem calc_size_store (p : Node K V) (k : K) (w : V) :
    _calc_size (_store p k w) = _calc_size p := by
  rw [← calc_size_skeleton, skeleton_store, calc_size_skeleton]

end Store

/-! ## `operator[]` -/

section SubscriptCalls
variable {K V : Type} [LinearOrder K] [Inhabited V]

/-- `operator[]` on a key that `find` finds: the tree is left alone. -/
theorem operator_subscript_of_find (t : AVL_Tree K V) (k : K) (h : find t k = true) :
    operator_subscript t k = (t, get t k) := by
  simp [operator_subscript, h]

/-- `operator[]` on a key that `find` does not find: `insert(key, V())`, then `get`. -/
theorem operator_subscript_of_not_find (t : AVL_Tree K V) (k : K) (h : find t k = false) :
    ∃ q, _insert t._root k default = Outcome.ret q ∧
      insert t k default = ({ _root := q, _size := t._size + 1 }, Except.ok ()) ∧
      operator_subscript t k =
        ({ _root := q, _size := t._size + 1 },
          get { _root := q, _size := t._size + 1 } k) := by
  have hf : (_find t._root k).isNull = true := by simpa [find] using h
  obtain ⟨q, hq⟩ := insert_ret_of_find t._root k default hf
  have hi : insert t k default = ({ _root := q, _size := t._size + 1 }, Except.ok ()) := by
    rw [insert_eq, hq]
  refine ⟨q, hq, hi, ?_⟩
  simp [operator_subscript, h, hi]

end SubscriptCalls

/-! ## Trees reached by calls -/

section Reach
variable {K V : Type} [LinearOrder K]

theorem inv_empty : Inv (AVL_Tree.empty : AVL_Tree K V) :=
  ⟨trivial, trivial, rfl⟩

theorem inv_insert (t : AVL_Tree K V) (k : K) (v : V) (h : Inv t) : Inv (insert t k v).1 := by
  obtain ⟨hs, ha, hz⟩ := h
  rw [insert_eq]
  cases hq : _insert t._root k v with
  | thrown e mem =>
    obtain ⟨_, hm⟩ := insert_thrown t._root k v e mem hq
    subst hm
    exact ⟨hs, ha, hz⟩
  | ret q =>
    refine ⟨insert_isSearchTree t._root k v hs q hq, (insert_avl t._root k v ha q hq).1, ?_⟩
    show t._size + 1 = _calc_size q
    rw [insert_calc_size t._root k v q hq, hz]

theorem inv_erase (t : AVL_Tree K V) (k : K) (h : Inv t) : Inv (erase t k).1 := by
  obtain ⟨hs, ha, hz⟩ := h
  rw [erase_eq]
  split_ifs with hn
  · exact ⟨hs, ha, hz⟩
  · cases hq : _remove t._root k with
    | thrown e mem =>
      obtain ⟨_, hm⟩ := remove_thrown t._root k e mem hq
      subst hm
      exact ⟨hs, ha, hz⟩
    | ret q =>
      refine ⟨remove_isSearchTree t._root k hs q hq, (remove_avl t._root k ha q hq).1, ?_⟩
      show size_t_dec t._size = _calc_size q
      have := remove_calc_size t._root k q hq
      rw [size_t_dec_pos _ (by omega)]
      omega

theorem inv_operator_subscript [Inhabited V] (t : AVL_Tree K V) (k : K) (h : Inv t) :
    Inv (operator_subscript t k).1 := by
  cases hf : find t k with
  | true => rw [operator_subscript_of_find t k hf]; exact h
  | false =>
    obtain ⟨q, _, hi, ho⟩ := operator_subscript_of_not_find t k hf
    have := inv_insert t k default h
    rw [hi] at this
    rw [ho]
    exact this

theorem inv_subscript_assign [Inhabited V] (t : AVL_Tree K V) (k : K) (v : V) (h : Inv t) :
    Inv (subscript_assign t k v).1 := by
  have h1 := inv_operator_subscript t k h
  unfold subscript_assign
  rcases ho : operator_subscript t k with ⟨t1, r⟩
  rw [ho] at h1
  cases r with
  | error e => exact h1
  | ok w =>
    obtain ⟨hs, ha, hz⟩ := h1
    exact ⟨(isSearchTree_store _ k v).2 hs, (isAVL_store _ k v).2 ha,
      by show t1._size = _; rw [calc_size_store]; exact hz⟩

theorem inv_step [Inhabited V] (t : AVL_Tree K V) (op : Op K V) (h : Inv t) :
    Inv (step t op) := by
  cases op with
  | insert k v => exact inv_insert t k v h
  | erase k => exact inv_erase t k h
  | subscript k => exact inv_operator_subscript t k h
  | subscript_assign k v => exact inv_subscript_assign t k v h

theorem inv_foldl [Inhabited V] (ops : List (Op K V)) (t : AVL_Tree K V) (h : Inv t) :
    Inv (ops.foldl step t) := by
  induction ops generalizing t with
  | nil => exact h
  | cons op ops ih => exact ih _ (inv_step t op h)

/-- Every tree reached from the empty tree by calls is a search tree, satisfies
the AVL invariant and has `_size` equal to its number of nodes. -/
theorem inv_run [Inhabited V] (ops : List (Op K V)) : Inv (run ops) :=
  inv_foldl ops _ inv_empty

end Reach

/-! ## Inserting and erasing a list of keys -/

section Bulk
variable {K V : Type} [LinearOrder K]

theorem mem_keys_insert (p : Node K V) (k : K) (v : V) (hp : IsSearchTree p)
    (hk : k ∉ keys p) (q : Node K V) (hq : _insert p k v = Outcome.ret q) (x : K) :
    x ∈ keys q ↔ x = k ∨ x ∈ keys p := by
  have hl := insert_toList p k v hp q hq
  rw [mem_keys_iff, mem_keys_iff]
  constructor
  · rintro ⟨w, hw⟩
    rw [hl, List.mem_append, List.mem_cons, List.mem_filter, List.mem_filter] at hw
    rcases hw with hw | hw | hw
    · exact Or.inr ⟨w, hw.1⟩
    · exact Or.inl (Prod.mk.inj hw).1
    · exact Or.inr ⟨w, hw.1⟩
  · rintro (rfl | ⟨w, hw⟩)
    · exact ⟨v, by rw [hl]; simp⟩
    · have hne : x ≠ k := fun h => hk (h ▸ fst_mem_keys hw)
      refine ⟨w, ?_⟩
      rw [hl, List.mem_append, List.mem_cons, List.mem_filter, List.mem_filter]
      rcases lt_or_gt_of_ne hne with h | h
      · exact Or.inl ⟨hw, by simpa using h⟩
      · exact Or.inr (Or.inr ⟨hw, by simpa using h⟩)

theorem mem_keys_remove (p : Node K V) (k : K) (hp : IsSearchTree p)
    (q : Node K V) (hq : _remove p k = Outcome.ret q) (x : K) :
    x ∈ keys q ↔ x ∈ keys p ∧ x ≠ k := by
  have hl := remove_toList p k hp q hq
  rw [mem_keys_iff, mem_keys_iff]
  constructor
  · rintro ⟨w, hw⟩
    rw [hl, List.mem_filter] at hw
    exact ⟨⟨w, hw.1⟩, by simpa using hw.2⟩
  · rintro ⟨⟨w, hw⟩, hne⟩
    exact ⟨w, by rw [hl, List.mem_filter]; exact ⟨hw, by simpa using hne⟩⟩

/-- Inserting pairs with distinct keys, none of them in the tree: every call
returns. -/
theorem insert_all_spec (kvs : List (K × V)) :
    ∀ t : AVL_Tree K V, IsSearchTree t._root → t._size = _calc_size t._root →
      (kvs.map Prod.fst).Nodup → (∀ k ∈ kvs.map Prod.fst, k ∉ keys t._root) →
      (insert_all t kvs).2 = true ∧ IsSearchTree (insert_all t kvs).1._root ∧
        (insert_all t kvs).1._size = _calc_size (insert_all t kvs).1._root ∧
        ∀ x, x ∈ keys (insert_all t kvs).1._root ↔
          x ∈ keys t._root ∨ x ∈ kvs.map Prod.fst := by
  induction kvs with
  | nil => intro t hs hz _ _; exact ⟨rfl, hs, hz, by simp [insert_all]⟩
  | cons kv rest ih =>
    intro t hs hz hnd hfresh
    obtain ⟨k, v⟩ := kv
    simp only [List.map_cons, List.nodup_cons] at hnd
    have hk : k ∉ keys t._root := hfresh k (by simp)
    obtain ⟨q, hq⟩ := insert_ret_of_not_mem t._root k v hk
    have hi : insert t k v = ({ _root := q, _size := t._size + 1 }, Except.ok ()) := by
      rw [insert_eq, hq]
    have hmem := mem_keys_insert t._root k v hs hk q hq
    have hsq := insert_isSearchTree t._root k v hs q hq
    have hzq : t._size + 1 = _calc_size q := by rw [insert_calc_size t._root k v q hq, hz]
    have hfresh' : ∀ x ∈ rest.map Prod.fst, x ∉ keys q := by
      intro x hx hxq
      rcases (hmem x).1 hxq with rfl | h
      · exact hnd.1 hx
      · exact hfresh x (by simp only [List.map_cons, List.mem_cons]; exact Or.inr hx) h
    obtain ⟨r1, r2, r3, r4⟩ := ih { _root := q, _size := t._size + 1 } hsq hzq hnd.2 hfresh'
    simp only [insert_all, hi]
    refine ⟨r1, r2, r3, fun x => ?_⟩
    rw [r4 x]
    show x ∈ keys q ∨ _ ↔ _
    rw [hmem x]
    simp only [List.map_cons, List.mem_cons]
    tauto

/-- Erasing each key of a search tree once, in any order: every call returns
and the empty tree is left. -/
theorem erase_all_spec (es : List K) :
    ∀ t : AVL_Tree K V, IsSearchTree t._root → t._size = _calc_size t._root →
      es.Nodup → (∀ x, x ∈ es ↔ x ∈ keys t._root) →
      (erase_all t es).2 = true ∧ (erase_all t es).1 = AVL_Tree.empty := by
  induction es with
  | nil =>
    intro t hs hz _ hmem
    obtain ⟨root, sz⟩ := t
    cases root with
    | null => simp only [_calc_size] at hz; subst hz; exact ⟨rfl, rfl⟩
    | node k v h l r => exact absurd ((hmem k).2 (by simp [keys_node])) (by simp)
  | cons e rest ih =>
    intro t hs hz hnd hmem
    simp only [List.nodup_cons] at hnd
    have he : e ∈ keys t._root := (hmem e).1 (by simp)
    have hf := (find_isNull_iff t._root e hs).2 he
    obtain ⟨q, hq⟩ := remove_ret_of_find t._root e hf
    have hnn : t._root.isNull = false := by
      cases h : t._root with
      | null => rw [h] at he; simp [keys, toList] at he
      | node _ _ _ _ _ => rfl
    have hi : erase t e = ({ _root := q, _size := size_t_dec t._size }, Except.ok ()) := by
      rw [erase_eq, hnn, hq]; rfl
    have hsq := remove_isSearchTree t._root e hs q hq
    have hzq : size_t_dec t._size = _calc_size q := by
      have := remove_calc_size t._root e q hq
      rw [size_t_dec_pos _ (by omega)]
      omega
    have hmem' : ∀ x, x ∈ rest ↔ x ∈ keys q := by
      intro x
      rw [mem_keys_remove t._root e hs q hq x, ← hmem x]
      simp only [List.mem_cons]
      constructor
      · intro hx
        exact ⟨Or.inr hx, fun h => hnd.1 (h ▸ hx)⟩
      · rintro ⟨rfl | hx, hne⟩
        · exact absurd rfl hne
        · exact hx
    obtain ⟨r1, r2⟩ := ih { _root := q, _size := size_t_dec t._size } hsq hzq hnd.2 hmem'
    simp only [erase_all, hi]
    exact ⟨r1, r2⟩

end Bulk

/-! ## `find_min` and `find_max` -/

section MaxSpec
variable {K V : Type}

/-- On a node, `_find_max` returns the last entry of the left-to-right sequence. -/
theorem find_max_spec (k : K) (v : V) (h : Nat) (l r : Node K V) :
    ∃ mk mv mh ml mr, _find_max (Node.node k v h l r) = Node.node mk mv mh ml mr ∧
      ∃ init, toList (Node.node k v h l r) = init ++ [(mk, mv)] := by
  induction r generalizing k v h l with
  | null => exact ⟨k, v, h, l, _, rfl, toList l, by simp [toList_node, toList_null]⟩
  | node rk rv rh rl rr _ ihr =>
    obtain ⟨mk, mv, mh, ml, mr, hm, init, hi⟩ := ihr rk rv rh rl
    refine ⟨mk, mv, mh, ml, mr, by rw [_find_max]; exact hm, toList l ++ (k, v) :: init, ?_⟩
    rw [toList_node k v h, hi]
    simp

/-- On a node, `_find_min` returns the first entry of the left-to-right sequence. -/
theorem find_min_head (k : K) (v : V) (h : Nat) (l r : Node K V) :
    ∃ mk mv mh ml mr, _find_min (Node.node k v h l r) = Node.node mk mv mh ml mr ∧
      ∃ rest, toList (Node.node k v h l r) = (mk, mv) :: rest := by
  obtain ⟨mk, mv, mh, ml, mr, hm, hl⟩ := find_min_spec k v h l r
  exact ⟨mk, mv, mh, ml, mr, hm, _, hl⟩

theorem find_min_of_null (t : AVL_Tree K V) (hn : t._root.isNull = true) :
    find_min t = Except.error Error.logic_error := by
  simp [find_min, _assert_empty, hn]

theorem find_max_of_null (t : AVL_Tree K V) (hn : t._root.isNull = true) :
    find_max t = Except.error Error.logic_error := by
  simp [find_max, _assert_empty, hn]

end MaxSpec

section MinMax
variable {K V : Type} [LinearOrder K]

/-- `find_min` on a search tree with a root: the entry with the least key. -/
theorem find_min_of_node (t : AVL_Tree K V) (hs : IsSearchTree t._root)
    (hn : t._root.isNull = false) :
    ∃ k v rest, find_min t = Except.ok (k, v) ∧ toList t._root = (k, v) :: rest ∧
      ∀ x ∈ keys t._root, k ≤ x := by
  obtain ⟨root, sz⟩ := t
  cases root with
  | null => simp [Node.isNull] at hn
  | node k v h l r =>
    obtain ⟨mk, mv, mh, ml, mr, hm, rest, hl⟩ := find_min_head k v h l r
    refine ⟨mk, mv, rest, ?_, hl, ?_⟩
    · simp [find_min, _assert_empty, Node.isNull, hm]
    · have hp := (isSearchTree_iff_toList _).1 hs
      simp only [] at hp
      rw [hl, List.pairwise_cons] at hp
      intro x hx
      obtain ⟨w, hw⟩ := (mem_keys_iff _ x).1 hx
      simp only [] at hw
      rw [hl, List.mem_cons] at hw
      rcases hw with hw | hw
      · exact le_of_eq (Prod.mk.inj hw).1.symm
      · exact le_of_lt (hp.1 _ hw)

/-- `find_max` on a search tree with a root: the entry with the greatest key. -/
theorem find_max_of_node (t : AVL_Tree K V) (hs : IsSearchTree t._root)
    (hn : t._root.isNull = false) :
    ∃ k v init, find_max t = Except.ok (k, v) ∧ toList t._root = init ++ [(k, v)] ∧
      (∀ e ∈ init, e.1 < k) ∧ ∀ x ∈ keys t._root, x ≤ k := by
  obtain ⟨root, sz⟩ := t
  cases root with
  | null => simp [Node.isNull] at hn
  | node k v h l r =>
    obtain ⟨mk, mv, mh, ml, mr, hm, init, hl⟩ := find_max_spec k v h l r
    have hp := (isSearchTree_iff_toList _).1 hs
    simp only [] at hp
    rw [hl, List.pairwise_append] at hp
    have hlt : ∀ e ∈ init, e.1 < mk := fun e he => hp.2.2 e he (mk, mv) (by simp)
    refine ⟨mk, mv, init, ?_, hl, hlt, ?_⟩
    · simp [find_max, _assert_empty, Node.isNull, hm]
    · intro x hx
      obtain ⟨w, hw⟩ := (mem_keys_iff _ x).1 hx
      simp only [] at hw
      rw [hl, List.mem_append, List.mem_singleton] at hw
      rcases hw with hw | hw
      · exact le_of_lt (hlt _ hw)
      · exact le_of_eq (Prod.mk.inj hw).1

end MinMax

/-! ## Walks and `_const_traversal` -/

section Walk
variable {K V : Type}

theorem copy_eq (p : Node K V) : Node.copy p = p := by
  induction p with
  | null => rfl
  | node k v h l r ihl ihr => simp only [Node.copy, ihl, ihr]

/-- `_const_traversal` hands the visitor the entries in the order of the walk
that the selector's arrangement of the three slots names. -/
theorem const_traversal_walk {σ : Type} (t : traversal_type) (a b c : Slot)
    (ht : t (Slot.left, Slot.self, Slot.right) = (a, b, c)) (func : K → V → σ → σ)
    (p : Node K V) (s : σ) :
    _const_traversal t func p s = (walk a b c p).foldl (fun s e => func e.1 e.2 s) s := by
  induction p generalizing s with
  | null => rfl
  | node k v h l r ihl ihr =>
    simp only [_const_traversal, ht, walk, List.foldl_append]
    cases a <;> cases b <;> cases c <;>
      simp only [ihl, ihr, List.foldl_cons, List.foldl_nil]

/-- A walk that takes the three parts in any order without repeating one lists
every node once. -/
theorem walk_perm (a b c : Slot) (hab : a ≠ b) (hbc : b ≠ c) (hac : a ≠ c) (p : Node K V) :
    (walk a b c p).Perm (toList p) := by
  induction p with
  | null => exact List.Perm.refl _
  | node k v h l r ihl ihr =>
    have e1 : ((k, v) :: toList r ++ toList l).Perm (toList l ++ (k, v) :: toList r) :=
      List.perm_append_comm
    have hm : (toList l ++ toList r ++ [(k, v)]).Perm (toList l ++ (k, v) :: toList r) := by
      rw [List.append_assoc]
      exact List.Perm.append_left _ List.perm_append_comm
    cases a <;> cases b <;> cases c <;>
      first
        | exact absurd rfl hab
        | exact absurd rfl hbc
        | exact absurd rfl hac
        | skip
    · -- left, self, right
      simpa [walk, toList_node] using List.Perm.append ihl (List.Perm.cons (k, v) ihr)
    · -- left, right, self
      have := List.Perm.append (List.Perm.append ihl ihr) (List.Perm.refl [(k, v)])
      simpa [walk, toList_node] using this.trans hm
    · -- self, left, right
      have := List.Perm.cons (k, v) (List.Perm.append ihl ihr)
      have h2 : ((k, v) :: (toList l ++ toList r)).Perm (toList l ++ (k, v) :: toList r) :=
        List.perm_middle.symm
      simpa [walk, toList_node] using this.trans h2
    · -- self, right, left
      have := List.Perm.cons (k, v) (List.Perm.append ihr ihl)
      simpa [walk, toList_node] using this.trans e1
    · -- right, left, self
      have := List.Perm.append (List.Perm.append ihr ihl) (List.Perm.refl [(k, v)])
      have h2 : (toList r ++ toList l ++ [(k, v)]).Perm (toList l ++ toList r ++ [(k, v)]) :=
        List.Perm.append_right _ List.perm_append_comm
      simpa [walk, toList_node] using this.trans (h2.trans hm)
    · -- right, self, left
      have := List.Perm.append ihr (List.Perm.cons (k, v) ihl)
      have h2 : (toList r ++ (k, v) :: toList l).Perm ((k, v) :: toList r ++ toList l) :=
        List.perm_middle
      simpa [walk, toList_node] using this.trans (h2.trans e1)

theorem walk_LRtR (p : Node K V) : walk Slot.left Slot.self Slot.right p = toList p := by
  induction p with
  | null => rfl
  | node k v h l r ihl ihr => simp [walk, toList_node, ihl, ihr]

end Walk

/-! ## `_traversal` -/

section Mut
variable {K V σ : Type}

theorem traversal_along_null (t : traversal_type) (func : K → V → σ → V × σ)
    (cur : Node K V) (s : σ) : _traversal_along t func Node.null cur s = (cur, s) := rfl

theorem traversal_along_node (t : traversal_type) (func : K → V → σ → V × σ)
    (gk : K) (gv : V) (gh : Nat) (gl gr cur : Node K V) (s : σ) :
    _traversal_along t func (Node.node gk gv gh gl gr) cur s =
      traversal_call func (_traversal_along t func gl) (_traversal_along t func gr)
        (t (Slot.left, Slot.self, Slot.right)).2.2
        (traversal_call func (_traversal_along t func gl) (_traversal_along t func gr)
          (t (Slot.left, Slot.self, Slot.right)).2.1
          (traversal_call func (_traversal_along t func gl) (_traversal_along t func gr)
            (t (Slot.left, Slot.self, Slot.right)).1 (cur, s))) := rfl

/-- One call keeps shape, keys and stored heights when the recursive calls do. -/
theorem skeleton_traversal_call (func : K → V → σ → V × σ)
    (onLeft onRight : Node K V → σ → Node K V × σ)
    (hl : ∀ x s, skeleton (onLeft x s).1 = skeleton x)
    (hr : ∀ x s, skeleton (onRight x s).1 = skeleton x) (n : Slot) (st : Node K V × σ) :
    skeleton (traversal_call func onLeft onRight n st).1 = skeleton st.1 := by
  obtain ⟨p, s⟩ := st
  cases p with
  | null => rfl
  | node k v h l r =>
    cases n <;> simp only [traversal_call, skeleton, hl, hr]

/-- `_traversal` keeps shape, keys and stored heights: the visitor reaches values
only. -/
theorem skeleton_traversal_along (t : traversal_type) (func : K → V → σ → V × σ)
    (g cur : Node K V) (s : σ) :
    skeleton (_traversal_along t func g cur s).1 = skeleton cur := by
  induction g generalizing cur s with
  | null => rfl
  | node gk gv gh gl gr ihl ihr =>
    rw [traversal_along_node, skeleton_traversal_call func _ _ ihl ihr,
      skeleton_traversal_call func _ _ ihl ihr, skeleton_traversal_call func _ _ ihl ihr]

theorem traversal_call_congr (func : K → V → σ → V × σ)
    (onLeft onRight onLeft1 onRight1 : Node K V → σ → Node K V × σ) (n : Slot)
    (k : K) (v : V) (h : Nat) (l r : Node K V) (s : σ)
    (hl : onLeft l s = onLeft1 l s) (hr : onRight r s = onRight1 r s) :
    traversal_call func onLeft onRight n (Node.node k v h l r, s) =
      traversal_call func onLeft1 onRight1 n (Node.node k v h l r, s) := by
  cases n <;> simp only [traversal_call, hl, hr]

/-- The shape the recursion runs along does not matter as long as it is the
shape of the subtree: `_traversal_along` on a subtree is `_traversal` on it. -/
theorem traversal_along_guide (t : traversal_type) (func : K → V → σ → V × σ)
    (g g1 cur : Node K V) (s : σ) (hg : skeleton g = skeleton cur)
    (hg1 : skeleton g1 = skeleton cur) :
    _traversal_along t func g cur s = _traversal_along t func g1 cur s := by
  induction g generalizing g1 cur s with
  | null =>
    cases cur with
    | null => cases g1 with
      | null => rfl
      | node _ _ _ _ _ => simp [skeleton] at hg1
    | node _ _ _ _ _ => simp [skeleton] at hg
  | node gk gv gh gl gr ihl ihr =>
    cases cur with
    | null => simp [skeleton] at hg
    | node k v h l r =>
      cases g1 with
      | null => simp [skeleton] at hg1
      | node k1 v1 h1 l1 r1 =>
        simp only [skeleton, Node.node.injEq] at hg hg1
        rw [traversal_along_node, traversal_along_node]
        have key : ∀ (n : Slot) (st : Node K V × σ),
            skeleton st.1 = skeleton (Node.node k v h l r) →
            traversal_call func (_traversal_along t func gl) (_traversal_along t func gr) n st =
              traversal_call func (_traversal_along t func l1) (_traversal_along t func r1)
                n st := by
          intro n st hst
          obtain ⟨p, s1⟩ := st
          cases p with
          | null => simp [skeleton] at hst
          | node pk pv ph pl pr =>
            simp only [skeleton, Node.node.injEq] at hst
            apply traversal_call_congr
            · exact ihl l1 pl s1 (hg.2.2.2.1.trans hst.2.2.2.1.symm)
                (hg1.2.2.2.1.trans hst.2.2.2.1.symm)
            · exact ihr r1 pr s1 (hg.2.2.2.2.trans hst.2.2.2.2.symm)
                (hg1.2.2.2.2.trans hst.2.2.2.2.symm)
        have hsk := fun n st => skeleton_traversal_call func (_traversal_along t func l1)
          (_traversal_along t func r1) (fun x s => skeleton_traversal_along t func l1 x s)
          (fun x s => skeleton_traversal_along t func r1 x s) n st
        have e1 := key (t (Slot.left, Slot.self, Slot.right)).1 (Node.node k v h l r, s) rfl
        rw [e1]
        have e2 := key (t (Slot.left, Slot.self, Slot.right)).2.1 _
          ((hsk (t (Slot.left, Slot.self, Slot.right)).1 (Node.node k v h l r, s)))
        rw [e2]
        exact key (t (Slot.left, Slot.self, Slot.right)).2.2 _
          ((hsk _ _).trans (hsk _ (Node.node k v h l r, s)))

end Mut

section Mut2
variable {K V σ : Type}

theorem skeleton_traversal (t : traversal_type) (func : K → V → σ → V × σ)
    (p : Node K V) (s : σ) : skeleton (_traversal t func p s).1 = skeleton p :=
  skeleton_traversal_along t func p p s

/-- `_traversal` satisfies the recursion of the source: at a node it makes the
three calls in the order the selector leaves the slots in, and a call on a child
is `_traversal` on that child as it stands at that moment. -/
theorem traversal_node (t : traversal_type) (func : K → V → σ → V × σ)
    (k : K) (v : V) (h : Nat) (l r : Node K V) (s : σ) :
    _traversal t func (Node.node k v h l r) s =
      traversal_call func (_traversal t func) (_traversal t func)
        (t (Slot.left, Slot.self, Slot.right)).2.2
        (traversal_call func (_traversal t func) (_traversal t func)
          (t (Slot.left, Slot.self, Slot.right)).2.1
          (traversal_call func (_traversal t func) (_traversal t func)
            (t (Slot.left, Slot.self, Slot.right)).1 (Node.node k v h l r, s))) := by
  have key : ∀ (n : Slot) (st : Node K V × σ),
      skeleton st.1 = skeleton (Node.node k v h l r) →
      traversal_call func (_traversal_along t func l) (_traversal_along t func r) n st =
        traversal_call func (_traversal t func) (_traversal t func) n st := by
    intro n st hst
    obtain ⟨p, s1⟩ := st
    cases p with
    | null => simp [skeleton] at hst
    | node pk pv ph pl pr =>
      simp only [skeleton, Node.node.injEq] at hst
      apply traversal_call_congr
      · exact traversal_along_guide t func l pl pl s1 hst.2.2.2.1.symm rfl
      · exact traversal_along_guide t func r pr pr s1 hst.2.2.2.2.symm rfl
  have hsk := fun n st => skeleton_traversal_call func (_traversal t func)
    (_traversal t func) (fun x s => skeleton_traversal t func x s)
    (fun x s => skeleton_traversal t func x s) n st
  show _traversal_along t func (Node.node k v h l r) (Node.node k v h l r) s = _
  rw [traversal_along_node]
  have e1 := key (t (Slot.left, Slot.self, Slot.right)).1 (Node.node k v h l r, s) rfl
  rw [e1]
  have e2 := key (t (Slot.left, Slot.self, Slot.right)).2.1 _
    ((hsk (t (Slot.left, Slot.self, Slot.right)).1 (Node.node k v h l r, s)))
  rw [e2]
  exact key (t (Slot.left, Slot.self, Slot.right)).2.2 _
    ((hsk _ _).trans (hsk _ (Node.node k v h l r, s)))

theorem traversal_null (t : traversal_type) (func : K → V → σ → V × σ) (s : σ) :
    _traversal t func (Node.null : Node K V) s = (Node.null, s) := rfl

/-- With a selector that leaves the three slots in an order without repetition,
`_traversal` invokes the visitor on the entries in the order of the walk, each
with the value the node had before the traversal. -/
theorem traversal_walk (t : traversal_type) (a b c : Slot)
    (ht : t (Slot.left, Slot.self, Slot.right) = (a, b, c))
    (hab : a ≠ b) (hbc : b ≠ c) (hac : a ≠ c) (func : K → V → σ → V × σ)
    (p : Node K V) (s : σ) :
    (_traversal t func p s).2 =
      (walk a b c p).foldl (fun s e => (func e.1 e.2 s).2) s := by
  induction p generalizing s with
  | null => rfl
  | node k v h l r ihl ihr =>
    rw [traversal_node, ht]
    cases a <;> cases b <;> cases c <;>
      first
        | exact absurd rfl hab
        | exact absurd rfl hbc
        | exact absurd rfl hac
        | simp only [traversal_call, walk, List.foldl_append, List.foldl_cons, List.foldl_nil,
            ihl, ihr]

/-- The visitor of `map` under `LRtR`: every value is replaced by `f` of it. -/
theorem traversal_map (f : V → V) (p : Node K V) :
    _traversal LRtR (fun _ val (s : Unit) => (f val, s)) p () = (map_values f p, ()) := by
  induction p with
  | null => rfl
  | node k v h l r ihl ihr =>
    rw [traversal_node]
    simp only [LRtR, traversal_call, ihl, ihr, map_values]

theorem skeleton_map_values (f : V → V) (p : Node K V) :
    skeleton (map_values f p) = skeleton p := by
  induction p with
  | null => rfl
  | node k v h l r ihl ihr => simp only [map_values, skeleton, ihl, ihr]

theorem toList_map_values (f : V → V) (p : Node K V) :
    toList (map_values f p) = (toList p).map (fun e => (e.1, f e.2)) := by
  induction p with
  | null => rfl
  | node k v h l r ihl ihr =>
    simp only [map_values, toList_node, ihl, ihr, List.map_append, List.map_cons]

theorem foldl_record_mut (xs log : List (K × V)) :
    xs.foldl (fun s e => (record_mut e.1 e.2 s).2) log = log ++ xs := by
  induction xs generalizing log with
  | nil => simp
  | cons x xs ih => rw [List.foldl_cons, ih]; simp [record_mut]

end Mut2

/-! ## `where` -/

section Where
variable {K V : Type} [LinearOrder K]

/-- Inserting a key greater than every key of a search tree appends its entry. -/
theorem insert_greatest (ret : AVL_Tree K V) (k : K) (v : V)
    (hs : IsSearchTree ret._root) (ha : IsAVL ret._root)
    (hz : ret._size = _calc_size ret._root) (hlt : ∀ e ∈ toList ret._root, e.1 < k) :
    ∃ r, insert ret k v = (r, Except.ok ()) ∧ toList r._root = toList ret._root ++ [(k, v)] ∧
      IsSearchTree r._root ∧ IsAVL r._root ∧ r._size = _calc_size r._root := by
  have hk : k ∉ keys ret._root := by
    intro hm
    obtain ⟨w, hw⟩ := (mem_keys_iff _ k).1 hm
    exact lt_irrefl _ (hlt _ hw)
  obtain ⟨q, hq⟩ := insert_ret_of_not_mem ret._root k v hk
  refine ⟨{ _root := q, _size := ret._size + 1 }, by rw [insert_eq, hq], ?_,
    insert_isSearchTree _ k v hs q hq, (insert_avl _ k v ha q hq).1, ?_⟩
  · show toList q = _
    rw [insert_toList _ k v hs q hq]
    have e1 : (toList ret._root).filter (fun e => decide (e.1 < k)) = toList ret._root :=
      List.filter_eq_self.2 (fun e he => by simpa using hlt e he)
    have e2 : (toList ret._root).filter (fun e => decide (k < e.1)) = [] :=
      List.filter_eq_nil_iff.2 (fun e he => by simpa using le_of_lt (hlt e he))
    rw [e1, e2]
  · show ret._size + 1 = _calc_size q
    rw [insert_calc_size _ k v q hq, hz]

/-- The visits of `where` over an ascending list of entries, all of them greater
than the keys already in `ret`: no `insert` throws, and the entries satisfying
the predicate are appended to `ret` in their order. -/
theorem where_fold (f : V → Bool) (xs : List (K × V)) :
    ∀ ret : AVL_Tree K V, xs.Pairwise (fun a b => a.1 < b.1) →
      IsSearchTree ret._root → IsAVL ret._root → ret._size = _calc_size ret._root →
      (∀ e ∈ toList ret._root, ∀ x ∈ xs, e.1 < x.1) →
      ∃ r, xs.foldl (fun st e => where_visit f e.1 e.2 st) (Except.ok ret) = Except.ok r ∧
        toList r._root = toList ret._root ++ xs.filter (fun e => f e.2) ∧
        IsSearchTree r._root ∧ IsAVL r._root ∧ r._size = _calc_size r._root := by
  induction xs with
  | nil => intro ret _ hs ha hz _; exact ⟨ret, rfl, by simp, hs, ha, hz⟩
  | cons x xs ih =>
    intro ret hp hs ha hz hlt
    rw [List.pairwise_cons] at hp
    rw [List.foldl_cons]
    by_cases hf : f x.2 = true
    · obtain ⟨r1, hi, hl1, hs1, ha1, hz1⟩ := insert_greatest ret x.1 x.2 hs ha hz
        (fun e he => hlt e he x (List.mem_cons_self _ _))
      have hv : where_visit f x.1 x.2 (Except.ok ret) = Except.ok r1 := by
        simp only [where_visit, hf, if_true, hi]
      have hlt1 : ∀ e ∈ toList r1._root, ∀ y ∈ xs, e.1 < y.1 := by
        intro e he y hy
        rw [hl1, List.mem_append, List.mem_singleton] at he
        rcases he with he | rfl
        · exact hlt e he y (List.mem_cons_of_mem _ hy)
        · exact hp.1 y hy
      obtain ⟨r, hr, hl, hsr, har, hzr⟩ := ih r1 hp.2 hs1 ha1 hz1 hlt1
      refine ⟨r, by rw [hv]; exact hr, ?_, hsr, har, hzr⟩
      rw [hl, hl1, List.filter_cons, if_pos hf, List.append_assoc]
      rfl
    · have hv : where_visit f x.1 x.2 (Except.ok ret) = Except.ok ret := by
        simp only [where_visit, hf, Bool.false_eq_true, if_false]
      obtain ⟨r, hr, hl, hsr, har, hzr⟩ := ih ret hp.2 hs ha hz
        (fun e he y hy => hlt e he y (List.mem_cons_of_mem _ hy))
      refine ⟨r, by rw [hv]; exact hr, ?_, hsr, har, hzr⟩
      rw [hl, List.filter_cons, if_neg hf]

end Where

/-! ## `subtree` -/

section Sub
variable {K V : Type}

theorem isSubtreeOf_refl (p : Node K V) : IsSubtreeOf p p := by
  cases p with
  | null => rfl
  | node k v h l r => exact Or.inl rfl

/-- The entries of a subtree are entries of the tree, in the same order. -/
theorem toList_sublist_of_isSubtreeOf (q p : Node K V) (h : IsSubtreeOf q p) :
    (toList q).Sublist (toList p) := by
  induction p with
  | null => rw [show q = Node.null from h]
  | node k v ht l r ihl ihr =>
    rcases h with h | h | h
    · rw [h]
    · exact (ihl h).trans (List.sublist_append_left _ _)
    · exact (ihr h).trans ((List.sublist_cons_self _ _).trans (List.sublist_append_right _ _))

end Sub

section SubOrder
variable {K V : Type} [LinearOrder K]

/-- The pointer `_find` returns points into the tree. -/
theorem find_isSubtreeOf (p : Node K V) (k : K) : IsSubtreeOf (_find p k) p := by
  induction p with
  | null => rfl
  | node key v h l r ihl ihr =>
    simp only [_find]
    split_ifs
    · exact Or.inl rfl
    · exact Or.inr (Or.inl ihl)
    · exact Or.inr (Or.inr ihr)
    · exact Or.inr (Or.inl (by
        clear ihl ihr
        induction l with
        | null => rfl
        | node _ _ _ _ _ ih _ => exact Or.inr (Or.inl ih)))

end SubOrder

/-! ## Height of an AVL tree -/

section Fib
variable {K V : Type}

/-- Under the AVL invariant the stored height is the real one. -/
theorem height_eq_depth (p : Node K V) (ha : IsAVL p) : _height p = depth p := by
  induction p with
  | null => rfl
  | node k v h l r ihl ihr =>
    obtain ⟨hl, hr, hh, _, _⟩ := ha
    rw [height_node, depth, ← ihl hl, ← ihr hr, hh]

/-- An AVL tree of height `h` has at least `Fib(h + 2) - 1` nodes. -/
theorem fib_le_calc_size (p : Node K V) (ha : IsAVL p) :
    Nat.fib (_height p + 2) ≤ _calc_size p + 1 := by
  induction p with
  | null => simp [_height, _calc_size]
  | node k v h l r ihl ihr =>
    obtain ⟨hl, hr, hh, hd1, hd2⟩ := ha
    have h1 := ihl hl
    have h2 := ihr hr
    rw [height_node, _calc_size, hh]
    rcases Nat.le_total (_height l) (_height r) with hle | hle
    · rw [Nat.max_eq_right hle]
      have e : _height r + 1 + 2 = (_height r + 1) + 2 := rfl
      rw [e, Nat.fib_add_two]
      have hm : Nat.fib (_height r + 1) ≤ Nat.fib (_height l + 2) :=
        Nat.fib_mono (by omega)
      have e2 : _height r + 1 + 1 = _height r + 2 := rfl
      rw [e2]
      omega
    · rw [Nat.max_eq_left hle]
      have e : _height l + 1 + 2 = (_height l + 1) + 2 := rfl
      rw [e, Nat.fib_add_two]
      have hm : Nat.fib (_height l + 1) ≤ Nat.fib (_height r + 2) :=
        Nat.fib_mono (by omega)
      have e2 : _height l + 1 + 1 = _height l + 2 := rfl
      rw [e2]
      omega

theorem two_pow_half_le_fib (n : Nat) : 2 ^ (n / 2) ≤ Nat.fib (n + 2) := by
  induction n using Nat.strong_induction_on with
  | _ n ih =>
    match n with
    | 0 => decide
    | 1 => decide
    | m + 2 =>
      have h1 := ih m (by omega)
      have hm : Nat.fib (m + 2) ≤ Nat.fib (m + 3) := Nat.fib_mono (by omega)
      have e : (m + 2) / 2 = m / 2 + 1 := by omega
      have e3 : m + 2 + 2 = (m + 2) + 2 := rfl
      rw [e, pow_succ, e3, Nat.fib_add_two]
      have e4 : m + 2 + 1 = m + 3 := rfl
      rw [e4]
      omega

/-- The height of an AVL tree with `N` nodes is at most `2 * log2(N + 1) + 1`. -/
theorem height_le_log (p : Node K V) (ha : IsAVL p) :
    _height p ≤ 2 * Nat.log 2 (_calc_size p + 1) + 1 := by
  have h1 := (two_pow_half_le_fib (_height p)).trans (fib_le_calc_size p ha)
  have h2 : _height p / 2 ≤ Nat.log 2 (_calc_size p + 1) :=
    Nat.le_log_of_pow_le (by decide) h1
  omega

end Fib

/-! ## PriorityQueue: `top`, `pop` and the popping loop -/

section QueueLemmas
variable {K V : Type} [LinearOrder K]

/-- `erase` of a key of a search tree, in one statement. -/
theorem erase_of_mem (t : AVL_Tree K V) (k : K) (hs : IsSearchTree t._root)
    (hk : k ∈ keys t._root) :
    ∃ q, erase t k = ({ _root := q, _size := size_t_dec t._size }, Except.ok ()) ∧
      toList q = (toList t._root).filter (fun e => decide (e.1 ≠ k)) ∧
      IsSearchTree q ∧ _calc_size q + 1 = _calc_size t._root ∧ (IsAVL t._root → IsAVL q) := by
  have hf := (find_isNull_iff t._root k hs).2 hk
  obtain ⟨q, hq⟩ := remove_ret_of_find t._root k hf
  have hnn : t._root.isNull = false := by
    cases h : t._root with
    | null => rw [h] at hk; simp [keys, toList] at hk
    | node _ _ _ _ _ => rfl
  refine ⟨q, by rw [erase_eq, hnn, hq]; rfl, remove_toList _ k hs q hq,
    remove_isSearchTree _ k hs q hq, remove_calc_size _ k q hq,
    fun ha => (remove_avl _ k ha q hq).1⟩

/-- `top` and `pop` on a queue that holds an entry: the payload of the greatest
priority; `pop` removes that entry and no other. -/
theorem pop_of_node (q : PriorityQueue V K) (hs : IsSearchTree q._tree._root)
    (hn : q._tree._root.isNull = false) :
    ∃ k v init r, toList q._tree._root = init ++ [(k, v)] ∧
      (∀ x ∈ keys q._tree._root, x ≤ k) ∧
      q.top = Except.ok v ∧
      q.pop = ({ _tree := { _root := r, _size := size_t_dec q._tree._size } }, Except.ok v) ∧
      toList r = init ∧ IsSearchTree r ∧ _calc_size r + 1 = _calc_size q._tree._root ∧
      (IsAVL q._tree._root → IsAVL r) := by
  obtain ⟨k, v, init, hm, hl, hlt, hmax⟩ := find_max_of_node q._tree hs hn
  have hk : k ∈ keys q._tree._root := by
    rw [mem_keys_iff]; exact ⟨v, by rw [hl]; simp⟩
  obtain ⟨r, he, hr, hsr, hcr, har⟩ := erase_of_mem q._tree k hs hk
  refine ⟨k, v, init, r, hl, hmax, ?_, ?_, ?_, hsr, hcr, har⟩
  · simp only [PriorityQueue.top, hm]
  · simp only [PriorityQueue.pop, hm, he]
  · rw [hr, hl, List.filter_append]
    have e1 : init.filter (fun e => decide (e.1 ≠ k)) = init :=
      List.filter_eq_self.2 (fun e he => by simpa using ne_of_lt (hlt e he))
    rw [e1]
    simp

/-- `top` and `pop` on a queue whose tree has no root: `std::logic_error`, and
the queue is as before. -/
theorem pop_of_null (q : PriorityQueue V K) (hn : q._tree._root.isNull = true) :
    q.top = Except.error Error.logic_error ∧ q.pop = (q, Except.error Error.logic_error) := by
  have h := find_max_of_null q._tree hn
  constructor
  · simp only [PriorityQueue.top, h]
  · simp only [PriorityQueue.pop, h]

end QueueLemmas

/-! ## PriorityQueue: `push` -/

section PushAux
variable {K V : Type} [LinearOrder K]

end PushAux

section PushLemmas
variable {K V : Type} [LinearOrder K] [Inhabited V]

end PushLemmas

/-! ## The logging visitor under `LRtR` and `RRtL` -/

section WalkMore
variable {K V : Type}

theorem walk_RRtL (p : Node K V) :
    walk Slot.right Slot.self Slot.left p = (toList p).reverse := by
  induction p with
  | null => rfl
  | node k v h l r ihl ihr => simp [walk, toList_node, ihl, ihr]

/-- The logging visitor stores back the value it was handed: under `LRtR` the
subtree is left as it was and the log receives its entries from left to right. -/
theorem traversal_record_LRtR (p : Node K V) (log : List (K × V)) :
    _traversal LRtR record_mut p log = (p, log ++ toList p) := by
  induction p generalizing log with
  | null => simp [traversal_null, toList_null]
  | node k v h l r ihl ihr =>
    rw [traversal_node]
    simp only [LRtR, traversal_call, ihl, ihr, record_mut, toList_node, List.append_assoc,
      List.singleton_append]

/-- Under `RRtL` the log receives the entries from right to left. -/
theorem traversal_record_RRtL (p : Node K V) (log : List (K × V)) :
    _traversal RRtL record_mut p log = (p, log ++ (toList p).reverse) := by
  induction p generalizing log with
  | null => simp [traversal_null, toList_null]
  | node k v h l r ihl ihr =>
    rw [traversal_node]
    simp only [RRtL, traversal_call, ihl, ihr, record_mut, toList_node, List.append_assoc,
      List.singleton_append, List.reverse_append, List.reverse_cons]

end WalkMore

/-! ## The claims -/

section Claims
variable {K V : Type} [LinearOrder K]

/-- C1: on a search tree with unique keys that satisfies the AVL invariant,
`insert(k, v)` of an absent key returns, and the tree after it satisfies the AVL
invariant at every node. -/
theorem insert_preserves_avl (t : AVL_Tree K V) (k : K) (v : V)
    (hs : IsSearchTree t._root) (ha : IsAVL t._root) (hk : k ∉ keys t._root) :
    (insert t k v).2 = Except.ok () ∧ IsAVL (insert t k v).1._root := by
  obtain ⟨root, sz⟩ := t
  cases root with
  | null => simp [insert, IsAVL, _height]
  | node key val h l r =>
    obtain ⟨q, hq⟩ := insert_ret_of_not_mem (Node.node key val h l r) k v hk
    have hav := (insert_avl (Node.node key val h l r) k v ha q hq).1
    simp only [insert, hq]
    exact ⟨trivial, hav⟩

/-- C1 at a concrete input: inserting key 3 into the tree holding 1 and 2, which
rotates at the root. -/
theorem insert_preserves_avl_witness :
    IsSearchTree sample12._root ∧ IsAVL sample12._root ∧ 3 ∉ keys sample12._root ∧
      (insert sample12 3 30).2 = Except.ok () ∧ IsAVL (insert sample12 3 30).1._root :=
  have hs : IsSearchTree sample12._root := by
    simp [sample12, IsSearchTree, keys, toList]
  have ha : IsAVL sample12._root := by simp [sample12, IsAVL, _height]
  have hk : 3 ∉ keys sample12._root := by simp [sample12, keys, toList]
  ⟨hs, ha, hk, insert_preserves_avl sample12 3 30 hs ha hk⟩

/-- C2: on a search tree with unique keys that satisfies the AVL invariant,
`erase(k)` of a present key returns, and the tree after it satisfies the AVL
invariant at every node. -/
theorem erase_preserves_avl (t : AVL_Tree K V) (k : K)
    (hs : IsSearchTree t._root) (ha : IsAVL t._root) (hk : k ∈ keys t._root) :
    (erase t k).2 = Except.ok () ∧ IsAVL (erase t k).1._root := by
  obtain ⟨root, sz⟩ := t
  cases root with
  | null => simp [keys, toList] at hk
  | node key val h l r =>
    have hf := (find_isNull_iff (Node.node key val h l r) k hs).2 hk
    obtain ⟨q, hq⟩ := remove_ret_of_find (Node.node key val h l r) k hf
    have hav := (remove_avl (Node.node key val h l r) k ha q hq).1
    simp only [erase, _assert_empty, Node.isNull, hq, Bool.false_eq_true, if_false]
    exact ⟨trivial, hav⟩

/-- C2 at a concrete input: erasing the root key 2 of the tree holding 1 to 4
(the root is replaced by the minimum of its right subtree), and erasing the key 1
(its node has no right child). -/
theorem erase_preserves_avl_witness :
    IsSearchTree sample1234._root ∧ IsAVL sample1234._root ∧
      ((erase sample1234 2).2 = Except.ok () ∧ IsAVL (erase sample1234 2).1._root) ∧
      ((erase sample1234 1).2 = Except.ok () ∧ IsAVL (erase sample1234 1).1._root) :=
  have hs : IsSearchTree sample1234._root := by
    simp [sample1234, IsSearchTree, keys, toList]
  have ha : IsAVL sample1234._root := by simp [sample1234, IsAVL, _height]
  ⟨hs, ha, erase_preserves_avl sample1234 2 hs ha (by simp [sample1234, keys, toList]),
    erase_preserves_avl sample1234 1 hs ha (by simp [sample1234, keys, toList])⟩

end Claims

section Claims2
variable {K V : Type} [LinearOrder K]

/-- `erase(k)` of a present key on a search tree with unique keys, whatever
`_size` holds: the call returns; afterwards `find(k)` is false, every other entry
is still found and bound to its previous value, the ascending sequence of
entries is the previous one without the entry of `k`, and one node is gone.
`size()` is decremented as a `size_t`: it has dropped by exactly 1 when it was
positive before the call (so whenever it was the node count), and it is
`SIZE_MAX` when it was 0. -/
theorem erase_present_spec (t : AVL_Tree K V) (k : K)
    (hs : IsSearchTree t._root) (ha : IsAVL t._root) (hk : k ∈ keys t._root) :
    (erase t k).2 = Except.ok () ∧
      IsSearchTree (erase t k).1._root ∧ IsAVL (erase t k).1._root ∧
      find (erase t k).1 k = false ∧
      (∀ k' v', (k', v') ∈ toList t._root → k' ≠ k →
        find (erase t k).1 k' = true ∧ get (erase t k).1 k' = Except.ok v') ∧
      toList (erase t k).1._root = (toList t._root).filter (fun e => decide (e.1 ≠ k)) ∧
      _calc_size (erase t k).1._root + 1 = _calc_size t._root ∧
      size (erase t k).1 = size_t_dec (size t) ∧
      (0 < size t → size (erase t k).1 + 1 = size t) ∧
      (size t = _calc_size t._root → size (erase t k).1 + 1 = size t) ∧
      (size t = 0 → size (erase t k).1 = SIZE_MAX) := by
  have hf := (find_isNull_iff t._root k hs).2 hk
  obtain ⟨q, hq⟩ := remove_ret_of_find t._root k hf
  have hl := remove_toList t._root k hs q hq
  have hsq := remove_isSearchTree t._root k hs q hq
  have haq := (remove_avl t._root k ha q hq).1
  have hcs := remove_calc_size t._root k q hq
  have hnn : t._root.isNull = false := by
    cases h : t._root with
    | null => rw [h] at hk; simp [keys, toList] at hk
    | node _ _ _ _ _ => rfl
  rw [erase_eq, hnn, hq]
  refine ⟨rfl, hsq, haq, ?_, ?_, hl, hcs, rfl, ?_, ?_, ?_⟩
  · apply find_eq_false_of_not_mem
    intro hmem
    obtain ⟨w, hw⟩ := (mem_keys_iff q k).1 hmem
    rw [hl, List.mem_filter] at hw
    simpa using hw.2
  · intro k' v' h hne
    have hm : (k', v') ∈ toList q := by
      rw [hl, List.mem_filter]
      exact ⟨h, by simpa using hne⟩
    exact ⟨(find_eq_true_iff _ k' hsq).2 (fst_mem_keys hm), get_of_mem _ k' v' hsq hm⟩
  · intro hpos
    simp only [size, Bool.false_eq_true, if_false] at hpos ⊢
    rw [size_t_dec_pos _ hpos]
    omega
  · intro hsz
    simp only [size, Bool.false_eq_true, if_false] at hsz ⊢
    rw [size_t_dec_pos _ (by omega)]
    omega
  · intro h0
    simp only [size, Bool.false_eq_true, if_false] at h0 ⊢
    rw [h0]
    rfl

/-- The statement above at a concrete input: erasing the root key 2 of the tree
holding 1 to 4. -/
theorem erase_present_spec_witness :
    toList (erase sample1234 2).1._root = [(1, 10), (3, 30), (4, 40)] ∧
      find (erase sample1234 2).1 2 = false ∧ size (erase sample1234 2).1 + 1 = 4 :=
  have hs : IsSearchTree sample1234._root := by
    simp [sample1234, IsSearchTree, keys, toList]
  have ha : IsAVL sample1234._root := by simp [sample1234, IsAVL, _height]
  have hk : 2 ∈ keys sample1234._root := by simp [sample1234, keys, toList]
  have h := erase_present_spec sample1234 2 hs ha hk
  ⟨by rw [h.2.2.2.2.2.1]; decide, h.2.2.2.1, h.2.2.2.2.2.2.2.2.1 (by decide)⟩

/-- C5, the run on which it fails:
`AVL_Tree<int,int> a, b; a.insert(1, 1); b = a; b.erase(1);`.  Copy assignment
gives `b` the node of `a` and leaves `b._size` at 0.  `b` is then a search tree
with unique keys that satisfies the AVL invariant and holds key 1; `erase(1)`
returns and unlinks the node, and `--_size` wraps: `size()` is `SIZE_MAX`
(18446744073709551615), not one less than before the call.  On the
copy-constructed `AVL_Tree<int,int> c(a)`, which takes `a._size`, the same
`erase(1)` brings `size()` from 1 to 0. -/
theorem erase_after_copy_assign_wraps :
    copy_assign (AVL_Tree.empty : AVL_Tree Int Int) one_entry_tree =
        some { _root := .node 1 1 1 .null .null, _size := 0 } ∧
      IsSearchTree (Node.node (1 : Int) (1 : Int) 1 .null .null) ∧
      IsAVL (Node.node (1 : Int) (1 : Int) 1 .null .null) ∧
      (1 : Int) ∈ keys (Node.node (1 : Int) (1 : Int) 1 .null .null) ∧
      size ({ _root := .node 1 1 1 .null .null, _size := 0 } : AVL_Tree Int Int) = 0 ∧
      erase ({ _root := .node 1 1 1 .null .null, _size := 0 } : AVL_Tree Int Int) 1 =
        ({ _root := .null, _size := SIZE_MAX }, Except.ok ()) ∧
      size (erase ({ _root := .node 1 1 1 .null .null, _size := 0 } : AVL_Tree Int Int) 1).1 =
        18446744073709551615 ∧
      size (erase ({ _root := .node 1 1 1 .null .null, _size := 0 } : AVL_Tree Int Int) 1).1 + 1 ≠
        size ({ _root := .node 1 1 1 .null .null, _size := 0 } : AVL_Tree Int Int) ∧
      erase (AVL_Tree.copy one_entry_tree) 1 = ({ _root := .null, _size := 0 }, Except.ok ()) := by
  refine ⟨rfl, ?_, ?_, ?_, rfl, rfl, rfl, ?_, rfl⟩
  · simp [IsSearchTree, keys, toList]
  · simp [IsAVL, _height]
  · simp [keys, toList]
  · decide

end Claims2

section Claims3
variable {K V : Type} [LinearOrder K]

/-- C7: `insert(k, v)` with `k` already present (found by `find`, or a key of a
search tree) throws `std::runtime_error` (DuplicateKeyError) and leaves the
tree as it was: same nodes, shape, stored heights, values and `size()`. -/
theorem insert_duplicate_throws (t : AVL_Tree K V) (k : K) (v : V)
    (hk : find t k = true ∨ (IsSearchTree t._root ∧ k ∈ keys t._root)) :
    insert t k v = (t, Except.error Error.runtime_error) := by
  have hf : (_find t._root k).isNull = false := by
    rcases hk with h | ⟨hs, hm⟩
    · simpa [find] using h
    · exact (find_isNull_iff t._root k hs).2 hm
  rw [insert_eq, insert_thrown_of_find t._root k v hf]

/-- C7 at a concrete input: inserting key 2 again into the tree holding 1 and 2. -/
theorem insert_duplicate_throws_witness :
    (IsSearchTree sample12._root ∧ 2 ∈ keys sample12._root) ∧
      insert sample12 2 99 = (sample12, Except.error Error.runtime_error) :=
  have hs : IsSearchTree sample12._root ∧ 2 ∈ keys sample12._root := by
    simp [sample12, IsSearchTree, keys, toList]
  ⟨hs, insert_duplicate_throws sample12 2 99 (Or.inr hs)⟩

/-- C8 as the code has it: `erase(k)` with `k` absent throws and leaves the
tree's nodes, shape, values and `size()` as they were; the exception is
`std::out_of_range` (KeyNotFoundError) on a non-empty tree and
`std::logic_error` (EmptyTreeError, from `_assert_empty`) on the empty tree. -/
theorem erase_absent_throws (t : AVL_Tree K V) (k : K) (hk : k ∉ keys t._root) :
    erase t k =
      (t, Except.error (if t._root.isNull then Error.logic_error else Error.out_of_range)) := by
  have hf : (_find t._root k).isNull = true := by
    cases h : (_find t._root k).isNull with
    | true => rfl
    | false => exact absurd (mem_keys_of_find t._root k h) hk
  rw [erase_eq, remove_thrown_of_find t._root k hf]
  cases h : t._root.isNull <;> simp

/-- C8 at a concrete input: erasing the absent key 5 from the tree holding 1 and 2. -/
theorem erase_absent_throws_witness :
    5 ∉ keys sample12._root ∧
      erase sample12 5 = (sample12, Except.error Error.out_of_range) :=
  have hk : 5 ∉ keys sample12._root := by simp [sample12, keys, toList]
  ⟨hk, erase_absent_throws sample12 5 hk⟩

/-- C8 as stated fails on the empty tree: `erase` throws `std::logic_error`
there, not `std::out_of_range`. -/
theorem erase_empty_throws_logic_error :
    (7 : Nat) ∉ keys (AVL_Tree.empty : AVL_Tree Nat Nat)._root ∧
      erase (AVL_Tree.empty : AVL_Tree Nat Nat) 7 =
        (AVL_Tree.empty, Except.error Error.logic_error) ∧
      (erase (AVL_Tree.empty : AVL_Tree Nat Nat) 7).2 ≠ Except.error Error.out_of_range := by
  refine ⟨by simp [AVL_Tree.empty, keys, toList], rfl, ?_⟩
  simp [erase, _assert_empty, AVL_Tree.empty, Node.isNull]

/-- C9: on a search tree with unique keys, `find(k)` is true exactly when `k` is
a key of the tree; `get(k)` returns the value bound to `k` when it is, and
throws `std::out_of_range` (KeyNotFoundError) when it is not, so `get(k)`
returns exactly when `find(k)` is true.  Both are functions of the tree alone:
they store nothing. -/
theorem find_get_spec (t : AVL_Tree K V) (k : K) (hs : IsSearchTree t._root) :
    (find t k = true ↔ k ∈ keys t._root) ∧
      (∀ v, (k, v) ∈ toList t._root → get t k = Except.ok v) ∧
      (k ∉ keys t._root → get t k = Except.error Error.out_of_range) ∧
      ((∃ v, get t k = Except.ok v) ↔ find t k = true) := by
  refine ⟨find_eq_true_iff t k hs, fun v h => get_of_mem t k v hs h,
    get_of_not_mem t k, ?_⟩
  constructor
  · rintro ⟨v, hv⟩
    exact (find_eq_true_iff t k hs).2 (fst_mem_keys (mem_of_get t k v hv))
  · intro h
    obtain ⟨v, hv⟩ := (mem_keys_iff t._root k).1 ((find_eq_true_iff t k hs).1 h)
    exact ⟨v, get_of_mem t k v hs hv⟩

/-- C9 at a concrete input: looking up the keys 4 and 5 in the tree holding 1 to 4. -/
theorem find_get_spec_witness :
    IsSearchTree sample1234._root ∧
      find sample1234 4 = true ∧ get sample1234 4 = Except.ok 40 ∧
      find sample1234 5 = false ∧ get sample1234 5 = Except.error Error.out_of_range :=
  have hs : IsSearchTree sample1234._root := by
    simp [sample1234, IsSearchTree, keys, toList]
  have h4 := find_get_spec sample1234 4 hs
  have h5 := find_get_spec sample1234 5 hs
  ⟨hs, h4.1.2 (by simp [sample1234, keys, toList]),
    h4.2.1 40 (by simp [sample1234, toList]),
    by
      cases h : find sample1234 5 with
      | false => rfl
      | true => exact absurd (h5.1.1 h) (by simp [sample1234, keys, toList]),
    h5.2.2.1 (by simp [sample1234, keys, toList])⟩

end Claims3

section Subscript
variable {K V : Type} [LinearOrder K] [Inhabited V]

end Subscript

section Claims4
variable {K V : Type} [LinearOrder K] [Inhabited V]

/-- C3: for every tree obtained from the empty tree by a sequence of `insert`,
`erase` and `operator[]` calls (stores through the returned reference and
throwing calls included), the `LRtR` traversal, `traversal` as well as
`const_traversal`, hands any visitor the entries of the tree, each once, in
strictly increasing key order, and the `RRtL` traversal hands it the same
entries in the reverse, strictly decreasing order.  The entries visited are the
tree's: the keys visited are those `find` finds, each with the value `get`
returns, and their number is `size()`; a visitor that stores nothing leaves the
tree as it was.  So these calls, with the rotations they perform, keep the
search-tree order. -/
theorem traversal_sorted (ops : List (Op K V)) :
    (∀ (σ : Type) (func : K → V → σ → σ) (s : σ),
      const_traversal (run ops) LRtR func s =
          (toList (run ops)._root).foldl (fun s e => func e.1 e.2 s) s ∧
        const_traversal (run ops) RRtL func s =
          (toList (run ops)._root).reverse.foldl (fun s e => func e.1 e.2 s) s) ∧
      (∀ (σ : Type) (func : K → V → σ → V × σ) (s : σ),
        (traversal (run ops) LRtR func s).2 =
            (toList (run ops)._root).foldl (fun s e => (func e.1 e.2 s).2) s ∧
          (traversal (run ops) RRtL func s).2 =
            (toList (run ops)._root).reverse.foldl (fun s e => (func e.1 e.2 s).2) s) ∧
      const_traversal (run ops) LRtR record [] = toList (run ops)._root ∧
      const_traversal (run ops) RRtL record [] = (toList (run ops)._root).reverse ∧
      traversal (run ops) LRtR record_mut [] = (run ops, toList (run ops)._root) ∧
      traversal (run ops) RRtL record_mut [] = (run ops, (toList (run ops)._root).reverse) ∧
      (∀ k, k ∈ (const_traversal (run ops) LRtR record []).map Prod.fst ↔
        find (run ops) k = true) ∧
      (∀ k v, (k, v) ∈ const_traversal (run ops) LRtR record [] ↔
        get (run ops) k = Except.ok v) ∧
      (const_traversal (run ops) LRtR record []).length = size (run ops) ∧
      ((const_traversal (run ops) LRtR record []).map Prod.fst).Pairwise (· < ·) ∧
      ((const_traversal (run ops) RRtL record []).map Prod.fst).Pairwise (· > ·) ∧
      const_traversal (run ops) RRtL record [] =
        (const_traversal (run ops) LRtR record []).reverse ∧
      IsSearchTree (run ops)._root := by
  have hs : IsSearchTree (run ops)._root := (inv_run ops).1
  have hz : (run ops)._size = _calc_size (run ops)._root := (inv_run ops).2.2
  have h1 : const_traversal (run ops) LRtR record [] = toList (run ops)._root := by
    rw [const_traversal, const_traversal_LRtR, foldl_record, List.nil_append]
  have h2 : const_traversal (run ops) RRtL record [] = (toList (run ops)._root).reverse := by
    rw [const_traversal, const_traversal_RRtL, foldl_record, List.nil_append]
  have hp := (isSearchTree_iff_pairwise (run ops)._root).1 hs
  rw [h1, h2]
  refine ⟨fun σ func s => ⟨const_traversal_LRtR func _ s, const_traversal_RRtL func _ s⟩,
    fun σ func s => ⟨?_, ?_⟩, rfl, rfl, ?_, ?_, ?_, ?_, ?_, hp, ?_, rfl, hs⟩
  · show (_traversal LRtR func (run ops)._root s).2 = _
    rw [traversal_walk LRtR _ _ _ rfl (by decide) (by decide) (by decide), walk_LRtR]
  · show (_traversal RRtL func (run ops)._root s).2 = _
    rw [traversal_walk RRtL _ _ _ rfl (by decide) (by decide) (by decide), walk_RRtL]
  · simp only [traversal, traversal_record_LRtR, List.nil_append]
  · simp only [traversal, traversal_record_RRtL, List.nil_append]
  · intro k
    rw [find_eq_true_iff _ k hs]
    rfl
  · intro k v
    constructor
    · exact get_of_mem _ k v hs
    · intro hg
      by_cases hk : k ∈ keys (run ops)._root
      · obtain ⟨w, hw⟩ := (mem_keys_iff _ k).1 hk
        have := get_of_mem _ k w hs hw
        rw [hg] at this
        cases this
        exact hw
      · rw [get_of_not_mem _ k hk] at hg
        cases hg
  · show _ = (run ops)._size
    rw [hz, calc_size_eq_length]
  · rw [List.map_reverse, List.pairwise_reverse]
    exact hp

/-- The visits on a tree built in the manner of `test_avl_tree_sort` (tests.hpp
lines 119-142), by `tree[t] = v` with a repeated key, then an `insert` and an
`erase`. -/
theorem sort_run_visits :
    const_traversal (run [Op.subscript_assign 5 50, Op.subscript_assign 2 20,
        Op.subscript_assign 8 80, Op.subscript_assign 2 21, Op.insert 9 90,
        Op.erase 5] : AVL_Tree Nat Nat) LRtR record [] = [(2, 21), (8, 80), (9, 90)] ∧
      const_traversal (run [Op.subscript_assign 5 50, Op.subscript_assign 2 20,
        Op.subscript_assign 8 80, Op.subscript_assign 2 21, Op.insert 9 90,
        Op.erase 5] : AVL_Tree Nat Nat) RRtL record [] = [(9, 90), (8, 80), (2, 21)] ∧
      (traversal (run [Op.subscript_assign 5 50, Op.subscript_assign 2 20,
        Op.subscript_assign 8 80, Op.subscript_assign 2 21, Op.insert 9 90,
        Op.erase 5] : AVL_Tree Nat Nat) LRtR record_mut []).2 = [(2, 21), (8, 80), (9, 90)] := by
  refine ⟨?_, ?_, ?_⟩ <;> decide

/-- C6: after any sequence of `insert`, `erase` and `operator[]` calls on the
empty tree, throwing calls included, `size()` is the number of nodes reachable
from the root; and inserting pairs with distinct keys and then erasing each of
these keys once, in any order, throws nowhere and leaves the empty tree, with no
root and `size() == 0`. -/
theorem size_consistent :
    (∀ ops : List (Op K V), size (run ops) = _calc_size (run ops)._root) ∧
      (∀ (kvs : List (K × V)) (es : List K),
        (kvs.map Prod.fst).Nodup → es.Perm (kvs.map Prod.fst) →
        (insert_all (AVL_Tree.empty : AVL_Tree K V) kvs).2 = true ∧
          (erase_all (insert_all (AVL_Tree.empty : AVL_Tree K V) kvs).1 es).2 = true ∧
          (erase_all (insert_all (AVL_Tree.empty : AVL_Tree K V) kvs).1 es).1 =
            AVL_Tree.empty) := by
  refine ⟨fun ops => (inv_run ops).2.2, ?_⟩
  intro kvs es hnd hperm
  obtain ⟨r1, r2, r3, r4⟩ := insert_all_spec kvs (AVL_Tree.empty : AVL_Tree K V) trivial rfl hnd
    (fun k _ => by simp [AVL_Tree.empty, keys_null])
  have hmem : ∀ x, x ∈ es ↔
      x ∈ keys (insert_all (AVL_Tree.empty : AVL_Tree K V) kvs).1._root := by
    intro x
    rw [r4 x, hperm.mem_iff]
    simp [AVL_Tree.empty, keys_null]
  obtain ⟨e1, e2⟩ := erase_all_spec es _ r2 r3 (hperm.nodup_iff.2 hnd) hmem
  exact ⟨r1, e1, e2⟩

/-- C6 at a concrete input: inserting the keys 3, 1, 2 and erasing them in the
order 2, 3, 1. -/
theorem size_consistent_witness :
    (insert_all (AVL_Tree.empty : AVL_Tree Nat Nat) [(3, 30), (1, 10), (2, 20)]).2 = true ∧
      (erase_all (insert_all (AVL_Tree.empty : AVL_Tree Nat Nat)
        [(3, 30), (1, 10), (2, 20)]).1 [2, 3, 1]).2 = true ∧
      (erase_all (insert_all (AVL_Tree.empty : AVL_Tree Nat Nat)
        [(3, 30), (1, 10), (2, 20)]).1 [2, 3, 1]).1 = AVL_Tree.empty :=
  (@size_consistent Nat Nat _ _).2 [(3, 30), (1, 10), (2, 20)] [2, 3, 1]
    (by decide) (by decide)

end Claims4

section Claims5
variable {K V : Type} [LinearOrder K]

/-- C11: on a search tree with a root, `find_min()` returns an entry of the tree
whose key is smaller than or equal to every key, and `find_max()` one whose key
is greater than or equal to every key; on the tree without root both throw
`std::logic_error` (EmptyTreeError).  Both are `const` members: functions of
the tree that store nothing. -/
theorem find_min_max_spec (t : AVL_Tree K V) (hs : IsSearchTree t._root) :
    (t._root.isNull = false →
        (∃ k v, find_min t = Except.ok (k, v) ∧ (k, v) ∈ toList t._root ∧
          ∀ x ∈ keys t._root, k ≤ x) ∧
        (∃ k v, find_max t = Except.ok (k, v) ∧ (k, v) ∈ toList t._root ∧
          ∀ x ∈ keys t._root, x ≤ k)) ∧
      (t._root.isNull = true →
        find_min t = Except.error Error.logic_error ∧
        find_max t = Except.error Error.logic_error) := by
  refine ⟨fun hn => ⟨?_, ?_⟩, fun hn => ⟨find_min_of_null t hn, find_max_of_null t hn⟩⟩
  · obtain ⟨k, v, rest, h1, h2, h3⟩ := find_min_of_node t hs hn
    exact ⟨k, v, h1, by rw [h2]; simp, h3⟩
  · obtain ⟨k, v, init, h1, h2, _, h3⟩ := find_max_of_node t hs hn
    exact ⟨k, v, h1, by rw [h2]; simp, h3⟩

/-- C11 at concrete inputs: the tree holding 1 to 4, and the empty tree. -/
theorem find_min_max_spec_witness :
    IsSearchTree sample1234._root ∧
      ((∃ k v, find_min sample1234 = Except.ok (k, v) ∧ (k, v) ∈ toList sample1234._root ∧
          ∀ x ∈ keys sample1234._root, k ≤ x) ∧
        (∃ k v, find_max sample1234 = Except.ok (k, v) ∧ (k, v) ∈ toList sample1234._root ∧
          ∀ x ∈ keys sample1234._root, x ≤ k)) ∧
      find_min sample1234 = Except.ok (1, 10) ∧ find_max sample1234 = Except.ok (4, 40) ∧
      find_min (AVL_Tree.empty : AVL_Tree Nat Nat) = Except.error Error.logic_error ∧
      find_max (AVL_Tree.empty : AVL_Tree Nat Nat) = Except.error Error.logic_error :=
  have hs : IsSearchTree sample1234._root := by
    simp [sample1234, IsSearchTree, keys, toList]
  have he := (find_min_max_spec (AVL_Tree.empty : AVL_Tree Nat Nat) trivial).2 rfl
  ⟨hs, (find_min_max_spec sample1234 hs).1 rfl, rfl, rfl, he.1, he.2⟩

end Claims5

section Claims6
variable {K V : Type}

theorem visitsAs_of (tr : AVL_Tree K V) (sel : traversal_type) (a b c : Slot)
    (ht : sel (Slot.left, Slot.self, Slot.right) = (a, b, c))
    (hab : a ≠ b) (hbc : b ≠ c) (hac : a ≠ c) : VisitsAs tr sel a b c := by
  have hp := walk_perm a b c hab hbc hac tr._root
  refine ⟨fun σ func s => const_traversal_walk sel a b c ht func tr._root s,
    fun σ func s => traversal_walk sel a b c ht hab hbc hac func tr._root s, ?_, ?_, hp, ?_⟩
  · rw [const_traversal, const_traversal_walk sel a b c ht, foldl_record, List.nil_append]
  · show (_traversal sel record_mut tr._root []).2 = _
    rw [traversal_walk sel a b c ht hab hbc hac, foldl_record_mut, List.nil_append]
  · rw [hp.length_eq, calc_size_eq_length]

/-- C12: for each of the six selectors and every tree, `traversal` and
`const_traversal` invoke the visitor exactly once per node, both in the order of
the depth-first walk that takes the three parts in the order the selector names:
`LRtR` left, node, right; `RRtL` right, node, left; `RtLR` node, left, right;
`LRRt` left, right, node; `RLRt` right, left, node; `RtRL` node, right, left. -/
theorem traversal_orders (tr : AVL_Tree K V) :
    VisitsAs tr LRtR Slot.left Slot.self Slot.right ∧
      VisitsAs tr RRtL Slot.right Slot.self Slot.left ∧
      VisitsAs tr RtLR Slot.self Slot.left Slot.right ∧
      VisitsAs tr LRRt Slot.left Slot.right Slot.self ∧
      VisitsAs tr RLRt Slot.right Slot.left Slot.self ∧
      VisitsAs tr RtRL Slot.self Slot.right Slot.left :=
  ⟨visitsAs_of tr LRtR _ _ _ rfl (by decide) (by decide) (by decide),
    visitsAs_of tr RRtL _ _ _ rfl (by decide) (by decide) (by decide),
    visitsAs_of tr RtLR _ _ _ rfl (by decide) (by decide) (by decide),
    visitsAs_of tr LRRt _ _ _ rfl (by decide) (by decide) (by decide),
    visitsAs_of tr RLRt _ _ _ rfl (by decide) (by decide) (by decide),
    visitsAs_of tr RtRL _ _ _ rfl (by decide) (by decide) (by decide)⟩

/-- C13: `map(t, f)` returns the tree of `t`'s shape, keys, stored heights and
`size()` in which every key is bound to `f` of the value `t` binds to it, `f`
applied once; the overload taking an rvalue returns the same tree and, like the
first, leaves its argument as it was. -/
theorem map_spec [LinearOrder K] (t : AVL_Tree K V) (f : V → V) :
    map t f = { _root := map_values f t._root, _size := t._size } ∧
      skeleton (map t f)._root = skeleton t._root ∧
      keys (map t f)._root = keys t._root ∧
      toList (map t f)._root = (toList t._root).map (fun e => (e.1, f e.2)) ∧
      size (map t f) = size t ∧
      map_rvalue t f = (t, map t f) := by
  have h : map t f = { _root := map_values f t._root, _size := t._size } := by
    simp only [map, traversal, AVL_Tree.copy, copy_eq, traversal_map]
  refine ⟨h, ?_, ?_, ?_, ?_, rfl⟩
  · rw [h]; exact skeleton_map_values f t._root
  · rw [h, ← keys_skeleton, skeleton_map_values, keys_skeleton]
  · rw [h]; exact toList_map_values f t._root
  · rw [h]; rfl

end Claims6

section Claims7
variable {K V : Type} [LinearOrder K]

/-- C14: on a search tree with unique keys, `where(t, p)` throws nothing (no
`insert` meets a duplicate) and returns a tree whose ascending sequence of
entries is the sub-sequence of `t`'s entries whose values satisfy `p`, with
`size()` the number of these entries; the rvalue overload returns the same. -/
theorem where_spec (t : AVL_Tree K V) (p : V → Bool) (hs : IsSearchTree t._root) :
    ∃ r, where_ t p = Except.ok r ∧ where_rvalue t p = Except.ok r ∧
      toList r._root = (toList t._root).filter (fun e => p e.2) ∧
      const_traversal r LRtR record [] = (toList t._root).filter (fun e => p e.2) ∧
      size r = ((toList t._root).filter (fun e => p e.2)).length ∧
      IsSearchTree r._root ∧ IsAVL r._root := by
  obtain ⟨r, hr, hl, hsr, har, hzr⟩ := where_fold p (toList t._root) AVL_Tree.empty
    ((isSearchTree_iff_toList _).1 hs) trivial trivial rfl (fun e he => by
      simp [AVL_Tree.empty, toList_null] at he)
  have hw : where_ t p = Except.ok r := by
    rw [where_, const_traversal, const_traversal_LRtR]
    exact hr
  have hl1 : toList r._root = (toList t._root).filter (fun e => p e.2) := by
    rw [hl]; simp [AVL_Tree.empty, toList_null]
  refine ⟨r, hw, hw, hl1, ?_, ?_, hsr, har⟩
  · rw [const_traversal, const_traversal_LRtR, foldl_record, List.nil_append, hl1]
  · show r._size = _
    rw [hzr, calc_size_eq_length, hl1]

/-- C14 at a concrete input: the entries with value at least 20 of the tree
holding 1 to 4. -/
theorem where_spec_witness :
    IsSearchTree sample1234._root ∧
      ∃ r, where_ sample1234 (fun v => decide (20 ≤ v)) = Except.ok r ∧
        toList r._root = [(2, 20), (3, 30), (4, 40)] ∧ size r = 3 :=
  have hs : IsSearchTree sample1234._root := by
    simp [sample1234, IsSearchTree, keys, toList]
  match where_spec sample1234 (fun v => decide (20 ≤ v)) hs with
  | ⟨r, h1, _, h2, _, h3, _⟩ =>
    ⟨hs, r, h1, by rw [h2]; decide, by rw [h3]; decide⟩

end Claims7

section Claims8
variable {K V : Type}

/-- C15: `reduce(t, init, f, selector)` is the left fold over the values in the
selector's visiting order, with `acc_0 = init` and `acc_i = f(v_i, acc_{i-1})`,
the value first and the accumulator second; without a selector the order is
the ascending one; on the empty tree it is `init`; with `init = 0` and integer
addition it is the sum of the values stored in the tree. -/
theorem reduce_spec (t : AVL_Tree K V) (init : V) (f : V → V → V) (ti : AVL_Tree K Int) :
    (∀ (sel : traversal_type) (a b c : Slot),
        sel (Slot.left, Slot.self, Slot.right) = (a, b, c) →
        reduce t init f sel =
          ((walk a b c t._root).map Prod.snd).foldl (fun acc v => f v acc) init) ∧
      reduce_default t init f =
        ((toList t._root).map Prod.snd).foldl (fun acc v => f v acc) init ∧
      (∀ sel : traversal_type, reduce (AVL_Tree.empty : AVL_Tree K V) init f sel = init) ∧
      reduce_default ti 0 (fun v acc => v + acc) = ((toList ti._root).map Prod.snd).sum := by
  have hgen : ∀ (W : Type) (tw : AVL_Tree K W) (i : W) (g : W → W → W)
      (sel : traversal_type) (a b c : Slot),
      sel (Slot.left, Slot.self, Slot.right) = (a, b, c) →
      reduce tw i g sel = ((walk a b c tw._root).map Prod.snd).foldl (fun acc v => g v acc) i := by
    intro W tw i g sel a b c ht
    rw [reduce, const_traversal, const_traversal_walk sel a b c ht, List.foldl_map]
  refine ⟨fun sel a b c ht => hgen V t init f sel a b c ht, ?_, fun sel => rfl, ?_⟩
  · rw [reduce_default, hgen V t init f LRtR _ _ _ rfl, walk_LRtR]
  · rw [reduce_default, hgen Int ti 0 _ LRtR _ _ _ rfl, walk_LRtR]
    generalize (toList ti._root).map Prod.snd = xs
    have : ∀ (a : Int), xs.foldl (fun acc v => v + acc) a = a + xs.sum := by
      induction xs with
      | nil => intro a; simp
      | cons x xs ih => intro a; rw [List.foldl_cons, ih, List.sum_cons]; ring
    rw [this 0, zero_add]

/-- C15 at a concrete input: a function that is not commutative, folded in
descending order over the tree holding 1 to 4, and the sum of the integer tree. -/
theorem reduce_spec_witness :
    reduce sample1234 0 (fun v acc => v + 2 * acc) RRtL = 490 ∧
      reduce_default sampleInt 0 (fun v acc => v + acc) = 10 :=
  have h := reduce_spec sample1234 0 (fun v acc => v + 2 * acc) sampleInt
  ⟨by rw [h.1 RRtL Slot.right Slot.self Slot.left rfl]; decide, by rw [h.2.2.2]; decide⟩

end Claims8

section Claims9
variable {K V : Type} [LinearOrder K]

/-- C16: on a search tree with unique keys, `subtree(k)` of a present key
returns a tree whose root is the node holding `k`, with everything beneath it
and nothing else, as `_find` reaches it inside `t`: same nodes, shape, values
and stored heights; its `size()` is the number of these nodes, and its `LRtR`
traversal lists their entries, a run of `t`'s ascending sequence, in ascending
key order.  `subtree` is a `const` member: a function of `t` that stores
nothing in it. -/
theorem subtree_spec (t : AVL_Tree K V) (k : K) (v : V) (hs : IsSearchTree t._root)
    (hk : (k, v) ∈ toList t._root) :
    ∃ r, subtree t k = some r ∧ r._root = _find t._root k ∧
      (∃ h l rr, r._root = Node.node k v h l rr) ∧
      IsSubtreeOf r._root t._root ∧
      size r = _calc_size r._root ∧
      const_traversal r LRtR record [] = toList r._root ∧
      (toList r._root).Sublist (toList t._root) ∧
      (keys r._root).Pairwise (· < ·) := by
  obtain ⟨h, l, rr, hf⟩ := find_of_mem t._root k v hs hk
  have hsub : IsSubtreeOf (Node.node k v h l rr) t._root := hf ▸ find_isSubtreeOf t._root k
  have hsl := toList_sublist_of_isSubtreeOf _ _ hsub
  refine ⟨{ _root := Node.node k v h l rr, _size := _calc_size (Node.node k v h l rr) },
    ?_, hf.symm, ⟨h, l, rr, rfl⟩, hsub, rfl, ?_, hsl, ?_⟩
  · simp only [subtree, hf, copy_eq]
  · rw [const_traversal, const_traversal_LRtR, foldl_record, List.nil_append]
  · have hp := (isSearchTree_iff_toList _).1 hs
    rw [keys, List.pairwise_map]
    exact hp.sublist hsl

/-- C16 at the input of main.cpp: `subtree(7)` after `t[i] = to_string(i)` for
`i = 0 .. 14`.  The node of 7 is the root by then, so all 15 entries come back. -/
theorem subtree_spec_witness :
    IsSearchTree sample15._root ∧ ((7, "7") ∈ toList sample15._root) ∧
      ∃ r, subtree sample15 7 = some r ∧ size r = 15 ∧
        (const_traversal r LRtR record []).map Prod.snd =
          ["0", "1", "2", "3", "4", "5", "6", "7", "8", "9", "10", "11", "12", "13", "14"] :=
  have hs : IsSearchTree sample15._root := (inv_run _).1
  have hk : (7, "7") ∈ toList sample15._root := by decide
  match subtree_spec sample15 7 "7" hs hk with
  | ⟨r, h1, h2, _, _, h4, h5, _, _⟩ =>
    ⟨hs, hk, r, h1, by rw [h4, h2]; decide, by rw [h5, h2]; decide⟩

end Claims9

section Claims10
variable {K V : Type} [LinearOrder K] [Inhabited V]

/-- C19: a tree satisfying the AVL invariant, with `N` nodes and height `h` (the
number of nodes on the longest path from the root to a leaf, which is also the
stored height), has `N + 1 ≥ Fib(h + 2)`, where `Fib(1) = Fib(2) = 1`; hence
`h ≤ 2 * log2(N + 1) + 1`, and the same holds of `height()` and `size()` on
every tree built by calls from the empty one. -/
theorem avl_height_bound :
    (∀ p : Node K V, IsAVL p →
        _height p = depth p ∧ Nat.fib (depth p + 2) ≤ _calc_size p + 1 ∧
        depth p ≤ 2 * Nat.log 2 (_calc_size p + 1) + 1) ∧
      (∀ (ops : List (Op K V)) (h : Nat), height (run ops) = some h →
        h = depth (run ops)._root ∧ Nat.fib (h + 2) ≤ size (run ops) + 1 ∧
        h ≤ 2 * Nat.log 2 (size (run ops) + 1) + 1) ∧
      Nat.fib 1 = 1 ∧ Nat.fib 2 = 1 := by
  have key : ∀ p : Node K V, IsAVL p →
      _height p = depth p ∧ Nat.fib (depth p + 2) ≤ _calc_size p + 1 ∧
      depth p ≤ 2 * Nat.log 2 (_calc_size p + 1) + 1 := by
    intro p ha
    have e := height_eq_depth p ha
    exact ⟨e, e ▸ fib_le_calc_size p ha, e ▸ height_le_log p ha⟩
  refine ⟨key, ?_, rfl, rfl⟩
  intro ops h hh
  obtain ⟨_, ha, hz⟩ := inv_run ops
  have hk := key _ ha
  have e : h = _height (run ops)._root := by
    simp only [height] at hh
    cases hr : (run ops)._root with
    | null => rw [hr] at hh; simp at hh
    | node _ _ _ _ _ => rw [hr] at hh; simp only [Option.some.injEq] at hh; rw [← hh]; rfl
  rw [e, size, hz, hk.1]
  exact ⟨rfl, hk.2.1, hk.2.2⟩

/-- C19 at concrete inputs: the tree holding 1 to 4 (height 3, 4 nodes) and the
tree of 15 keys (height 4). -/
theorem avl_height_bound_witness :
    IsAVL sample1234._root ∧ Nat.fib (depth sample1234._root + 2) ≤ 4 + 1 ∧
      height sample15 = some 4 ∧ Nat.fib (4 + 2) ≤ size sample15 + 1 :=
  have ha : IsAVL sample1234._root := by simp [sample1234, IsAVL, _height]
  have h15 : height sample15 = some 4 := by decide
  ⟨ha, ((@avl_height_bound Nat Nat _ _).1 sample1234._root ha).2.1, h15,
    ((@avl_height_bound Nat String _ _).2.1 _ 4 h15).2.1⟩

end Claims10

section Claims11
variable {K V : Type}

/-- C20, what the code does: `clear()` leaves the tree without root, and leaves
`_size` as it was, so `size()` after `clear()` is the old `size()` and a
`PriorityQueue` is `empty()` after `clear()` only if it was before. -/
theorem clear_keeps_size [LinearOrder K] (t : AVL_Tree K V) (q : PriorityQueue V K) :
    (clear t)._root = Node.null ∧ size (clear t) = size t ∧
      _calc_size (clear t)._root = 0 ∧
      (PriorityQueue.clear q).size = q.size ∧ (PriorityQueue.clear q).empty = q.empty ∧
      size (clear sample12) = 2 ∧
      (PriorityQueue.clear ({ _tree := sample12 } : PriorityQueue Nat Nat)).empty = false :=
  ⟨rfl, rfl, rfl, rfl, rfl, rfl, rfl⟩

end Claims11

section Claims12
variable {K V : Type} [LinearOrder K] [Inhabited V]

end Claims12

section Claims13
variable {K V : Type} [LinearOrder K]

/-- C18: on a queue that holds an entry (its tree a search tree with a root),
`top()` returns the payload stored under the largest priority, and `pop()`
returns the same payload and removes that entry and no other, `size()` dropping
by 1: `size()` after `pop()` is the `size_t` decrement of `size()`, which is one
less whenever `size()` was positive, in particular whenever it was at least the
node count, as it is on every queue (a `PriorityQueue` cannot be copy-assigned);
on a queue whose tree has no root both throw `std::logic_error`
(EmptyQueueError) and the queue stays as it was.  `top` is a `const` member: a
function of the queue that stores nothing.  When `size()` is the node count,
`empty()` tells whether the tree has a root. -/
theorem top_pop_spec (q : PriorityQueue V K) (hs : IsSearchTree q._tree._root) :
    (q._tree._root.isNull = false →
      ∃ k v init, toList q._tree._root = init ++ [(k, v)] ∧
        (∀ x ∈ keys q._tree._root, x ≤ k) ∧
        q.top = Except.ok v ∧ (q.pop).2 = Except.ok v ∧
        toList (q.pop).1._tree._root = init ∧
        IsSearchTree (q.pop).1._tree._root ∧
        (q.pop).1.size = size_t_dec q.size ∧
        (0 < q.size → (q.pop).1.size = q.size - 1) ∧
        (_calc_size q._tree._root ≤ q._tree._size → (q.pop).1.size + 1 = q.size) ∧
        (q._tree._size = _calc_size q._tree._root →
          (q.pop).1.size + 1 = q.size ∧
          (q.pop).1._tree._size = _calc_size (q.pop).1._tree._root)) ∧
      (q._tree._root.isNull = true →
        q.top = Except.error Error.logic_error ∧
        q.pop = (q, Except.error Error.logic_error)) ∧
      (q._tree._size = _calc_size q._tree._root → q.empty = q._tree._root.isNull) := by
  refine ⟨fun hn => ?_, pop_of_null q, fun hz => ?_⟩
  · obtain ⟨k, v, init, r, hl, hmax, htop, hpop, hr, hsr, hcr, _⟩ := pop_of_node q hs hn
    refine ⟨k, v, init, hl, hmax, htop, ?_, ?_, ?_, ?_, ?_, ?_, ?_⟩
    · rw [hpop]
    · rw [hpop]; exact hr
    · rw [hpop]; exact hsr
    · rw [hpop]; rfl
    · intro hpos
      rw [hpop]
      exact size_t_dec_pos _ hpos
    · intro hge
      rw [hpop]
      simp only [PriorityQueue.size, size]
      rw [size_t_dec_pos _ (by omega)]
      omega
    · intro hz
      rw [hpop]
      simp only [PriorityQueue.size, size]
      rw [size_t_dec_pos _ (by omega)]
      omega
  · simp only [PriorityQueue.empty, size, hz]
    cases q._tree._root with
    | null => rfl
    | node k v h l r => simp [_calc_size, Node.isNull]

/-- C18 at concrete inputs: the queue over the tree holding 1 to 4, and the
empty queue. -/
theorem top_pop_spec_witness :
    IsSearchTree sample1234._root ∧
      (∃ v, PriorityQueue.top ({ _tree := sample1234 } : PriorityQueue Nat Nat) = Except.ok v ∧
        (PriorityQueue.pop ({ _tree := sample1234 } : PriorityQueue Nat Nat)).2 =
          Except.ok v) ∧
      PriorityQueue.top ({ _tree := sample1234 } : PriorityQueue Nat Nat) = Except.ok 40 ∧
      toList (PriorityQueue.pop ({ _tree := sample1234 } : PriorityQueue Nat Nat)).1._tree._root =
        [(1, 10), (2, 20), (3, 30)] ∧
      PriorityQueue.pop (PriorityQueue.new : PriorityQueue Nat Nat) =
        (PriorityQueue.new, Except.error Error.logic_error) :=
  have hs : IsSearchTree sample1234._root := by
    simp [sample1234, IsSearchTree, keys, toList]
  have he := (top_pop_spec (PriorityQueue.new : PriorityQueue Nat Nat) trivial).2.1 rfl
  match (top_pop_spec ({ _tree := sample1234 } : PriorityQueue Nat Nat) hs).1 rfl with
  | ⟨_, v, _, _, _, htop, hpop, _⟩ => ⟨hs, ⟨v, htop, hpop⟩, rfl, by decide, he.2⟩

end Claims13

section Claims14
variable {K V : Type} [LinearOrder K] [Inhabited V]

/-- C21: after move construction from `s`, and after move assignment from `s` to
another tree `d`, the destination has the nodes, shape, values, stored heights
and `size()` that `s` had, and `s` has no root and `size() == 0`: it is in the
state of a default-constructed tree, so every later call on it, alone or in a
sequence, does what it does on a new empty tree.  The last three lines are the
checks of `test_avl_tree_basics` after `tree2 = std::move(tree)`. -/
theorem move_spec (s d : AVL_Tree K V) :
    (move_construct s).1 = s ∧ (move_assign d s).1 = s ∧
      (move_construct s).2 = AVL_Tree.empty ∧ (move_assign d s).2 = AVL_Tree.empty ∧
      (move_assign d s).2._root = Node.null ∧ size (move_assign d s).2 = 0 ∧
      (move_construct s).2._root = Node.null ∧ size (move_construct s).2 = 0 ∧
      (∀ ops : List (Op K V), ops.foldl step (move_assign d s).2 = run ops) ∧
      (∀ ops : List (Op K V), ops.foldl step (move_construct s).2 = run ops) ∧
      (∀ k v, insert (move_assign d s).2 k v = insert AVL_Tree.empty k v) ∧
      (∀ k, erase (move_assign d s).2 k = (AVL_Tree.empty, Except.error Error.logic_error)) ∧
      (∀ k, find (move_assign d s).2 k = false ∧
        get (move_assign d s).2 k = Except.error Error.out_of_range) ∧
      find_min (move_assign d s).2 = Except.error Error.logic_error ∧
      size (move_assign (AVL_Tree.copy basics_tree) basics_tree_stored).2 = 0 ∧
      get (move_assign (AVL_Tree.copy basics_tree) basics_tree_stored).1 (-1) =
        Except.ok (-1) ∧
      get (move_assign (AVL_Tree.copy basics_tree) basics_tree_stored).1 (-2) =
        Except.ok 2 :=
  ⟨rfl, rfl, rfl, rfl, rfl, rfl, rfl, rfl, fun _ => rfl, fun _ => rfl, fun _ _ => rfl,
    fun _ => rfl, fun _ => ⟨rfl, rfl⟩, rfl, rfl, rfl, rfl⟩

end Claims14

section Claims15
variable {K V : Type}

/-- C22, what the code does: `height()` has no `_assert_empty()` and is declared
`noexcept`; it reads `_root->height`.  On a tree with a root it returns the
stored height of the root; on a tree without root it dereferences the null
`_root` (`none`) and throws nothing, while `find_min()` and `find_max()` on the
same tree throw `std::logic_error`. -/
theorem height_of_empty (t : AVL_Tree K V) :
    (t._root.isNull = true → height t = none) ∧
      (t._root.isNull = false → height t = some (_height t._root)) ∧
      height (AVL_Tree.empty : AVL_Tree Nat Nat) = none ∧
      find_min (AVL_Tree.empty : AVL_Tree Nat Nat) = Except.error Error.logic_error ∧
      find_max (AVL_Tree.empty : AVL_Tree Nat Nat) = Except.error Error.logic_error := by
  obtain ⟨root, sz⟩ := t
  cases root with
  | null => exact ⟨fun _ => rfl, fun h => by simp [Node.isNull] at h, rfl, rfl, rfl⟩
  | node k v h l r => exact ⟨fun h => by simp [Node.isNull] at h, fun _ => rfl, rfl, rfl, rfl⟩

/-- C22 at concrete inputs: `height()` on the tree holding 1 to 4 and on the
empty tree. -/
theorem height_of_empty_witness :
    height sample1234 = some 3 ∧ height (AVL_Tree.empty : AVL_Tree Nat Nat) = none :=
  ⟨(height_of_empty sample1234).2.1 rfl, (height_of_empty AVL_Tree.empty).1 rfl⟩

end Claims15

end AVL
